import Mathlib

/-!
Flaky-test reporter and retryer metrics: a verification development.

Shallow embedding of

* `tools/flaky-test-reporter/jsonreport/jsonreport.go`
  (`getReportPaths`, `getLatestValidBuild`, `readJSONReport`,
  `GetFlakyTestReport`, `ParseFlakyLog`),
* `tools/flaky-test-retryer/metrics/executions/main.go`
  (`filterStatuses`, the loop of `getPRStatus`, `filterComments`,
  `getRetryAttempts`, `getRetryerState`), and
* `tools/flaky-test-retryer/metrics/ratios/main.go`
  (`initData`, `getPullRequests`, `filterComments`, the counting loop of `main`).

Conventions of the embedding.

* Go strings are Lean `String`s; the byte-wise library functions
  (`strings.HasSuffix`, `strings.TrimPrefix`, `path.Join`, `path.Clean`) are
  defined on the character list `String.data`. On valid UTF-8, which Lean
  strings are, a byte-wise prefix or suffix test agrees with the character-wise
  one, and `/` and `.` are single bytes.
* A Go function returning `(value, error)` returns a Lean pair whose second
  component is an `Option` (`none` is the `nil` error); a `nil` slice is `[]`.
* The build store (`prow.Job`, `prow.Build`) is an external collaborator: what
  the code observes of it is a record of functions, `JobStore`.
* Times are integers: start times in seconds since the epoch (the int64 that
  `GetStartTime` returns), the clock and durations in nanoseconds.
  `time.Unix` keeps the seconds since year 1 in an int64 and wraps around
  (`timeUnix`); `time.Since` saturates to the range of `time.Duration`.
* A Go `map[string]string` is an association list with distinct keys; the
  unspecified iteration order of `range` over it is an arbitrary permutation of
  that list.
-/

namespace FlakyInfra

/-! ## Go library functions used by the code -/

/-- Go `strings.HasSuffix s suffix`. -/
def hasSuffix (s suffix : String) : Bool :=
  decide (suffix.data <:+ s.data)

/-- Go `strings.HasPrefix s pre`. -/
def hasPrefix (s pre : String) : Bool :=
  decide (pre.data <+: s.data)

/-- Go `strings.TrimPrefix s pre`: `s` without the leading `pre` when it starts
with it, `s` itself otherwise. -/
def trimPrefix (s pre : String) : String :=
  if hasPrefix s pre then String.mk (s.data.drop pre.data.length) else s

/-- Split a character list at every `/` (always at least one component). -/
def splitSlash : List Char → List (List Char)
  | [] => [[]]
  | c :: cs =>
    if c = '/' then [] :: splitSlash cs
    else
      match splitSlash cs with
      | [] => [[c]]
      | x :: xs => (c :: x) :: xs

/-- One step of `path.Clean` on the stack of kept path elements (top first):
empty and `.` elements are dropped, `..` removes the preceding kept element
when there is one that is not itself `..`, is dropped at the root of a rooted
path, and is kept otherwise; any other element is kept. -/
def cleanStep (rooted : Bool) (stack : List (List Char)) (elem : List Char) :
    List (List Char) :=
  if elem = [] then stack
  else if elem = ['.'] then stack
  else if elem = ['.', '.'] then
    match stack with
    | [] => if rooted then [] else [elem]
    | top :: rest => if top = ['.', '.'] then elem :: stack else rest
  else elem :: stack

/-- Join path elements with single slashes. -/
def joinSlash : List (List Char) → List Char
  | [] => []
  | [x] => x
  | x :: y :: rest => x ++ '/' :: joinSlash (y :: rest)

/-- Go `path.Clean` on a character list: the shortest equivalent path by
purely lexical processing. -/
def cleanChars (p : List Char) : List Char :=
  if p = [] then ['.']
  else
    let rooted : Bool := decide (p.head? = some '/')
    let kept := ((splitSlash p).foldl (cleanStep rooted) []).reverse
    let body := joinSlash kept
    if rooted then '/' :: body
    else if body = [] then ['.'] else body

/-- Go `path.Join a b`: the non-empty elements joined with a slash, then
cleaned; the empty string when both are empty. -/
def pathJoin (a b : String) : String :=
  if a.data = [] ∧ b.data = [] then ""
  else if a.data = [] then String.mk (cleanChars b.data)
  else if b.data = [] then String.mk (cleanChars a.data)
  else String.mk (cleanChars (a.data ++ '/' :: b.data))

/-! ## jsonreport -/

/-- The constant `filename`. -/
def filename : String := "flaky-tests.json"

/-- The constant `maxAge`: maximum age in days that JSON data is valid. -/
def maxAge : Int := 4

/-- Nanoseconds in one hour (`time.Hour`). -/
def hourNs : Int := 3600 * 1000000000

/-- Nanoseconds in one day. -/
def dayNs : Int := 24 * hourNs

/-- The value `maxElapsedTime` of `getLatestValidBuild`: the duration parsed
from `fmt.Sprintf("%dh", maxAge*24)`, in nanoseconds. -/
def maxElapsedTime : Int := (maxAge * 24) * hourNs

/-- Largest `time.Duration` (an int64 count of nanoseconds). -/
def maxDuration : Int := 2 ^ 63 - 1

/-- Smallest `time.Duration`. -/
def minDuration : Int := -(2 ^ 63)

/-- The constant `unixToInternal` of package `time`: the seconds from 1 January
of year 1, the origin of the seconds a `time.Time` stores, to the Unix epoch. -/
def unixToInternal : Int := 62135596800

/-- The value of an integer once stored in an int64 (two's complement). -/
def wrapInt64 (x : Int) : Int := (x + 2 ^ 63) % 2 ^ 64 - 2 ^ 63

/-- Go `time.Unix(sec, 0)` for the int64 `sec`: the seconds since year 1 that
the returned `time.Time` stores, the int64 sum `sec + unixToInternal`, which
wraps around for `sec` of `2 ^ 63 - unixToInternal` and more. -/
def timeUnix (sec : Int) : Int := wrapInt64 (sec + unixToInternal)

/-- Go `time.Since (time.Unix startSec 0)` read at clock value `now`
(nanoseconds since the Unix epoch), that is `time.Now().Sub(t)`: the
nanoseconds from the instant that `t` stores to now, saturated to the range of
`time.Duration`. -/
def timeSince (now startSec : Int) : Int :=
  let d := (now + unixToInternal * 1000000000) - timeUnix startSec * 1000000000
  if d < minDuration then minDuration
  else if maxDuration < d then maxDuration
  else d

/-- The struct `Report`. -/
structure Report where
  Repo : String
  Flaky : List String
deriving DecidableEq, Repr

/-- The errors the functions of jsonreport return. The two errors built by
`getLatestValidBuild` are told apart by their message; the formatted age in the
first message is not modelled. Errors of the collaborators (`ReadFile`,
`json.Unmarshal`) carry their message. -/
inductive Error where
  /-- The error `latest JSON log is outdated: ... days old`. -/
  | outdated
  /-- The error `no JSON logs found in recent builds`. -/
  | noLogsFound
  /-- An error returned by `build.ReadFile`. -/
  | readFailed (msg : String)
  /-- An error returned by `json.Unmarshal`. -/
  | decodeFailed (msg : String)
deriving DecidableEq, Repr

/-- What jsonreport observes of the build store for the job
`ci-knative-flakes-reporter` (package `prow`, an external collaborator), and of
the JSON decoder. -/
structure JobStore where
  /-- The result of `job.GetLatestBuildNumber()`: `none` when it returns an error. -/
  latestBuildNumber : Option Int
  /-- The result of `job.GetBuildIDs()`. -/
  buildIDs : List Int
  /-- The field `StoragePath` of `job.NewBuild(id)`. -/
  storagePath : Int → String
  /-- The result of `build.GetArtifacts()` for `job.NewBuild(id)`. -/
  artifacts : Int → List String
  /-- The result of `build.GetStartTime()`, an int64 of seconds since the epoch: `none`
  when it returns an error. -/
  startTime : Int → Option Int
  /-- The result of `build.ReadFile(path)`: the contents or an error. -/
  readFile : Int → String → Except Error String
  /-- The result of `json.Unmarshal(contents, report)` on an empty report: the
  decoded report or an error. -/
  unmarshal : String → Except Error Report

/-- The function `getReportPaths`: the artifacts of the build whose path ends
with `path.Join(repo, filename)`, each with the storage path trimmed. -/
def getReportPaths (s : JobStore) (build : Int) (repo : String) : List String :=
  let suffix := pathJoin repo filename
  (s.artifacts build).foldl
    (fun matched artifact =>
      if hasSuffix artifact suffix then
        matched ++ [trimPrefix artifact (s.storagePath build)]
      else matched)
    []

/-- Go `sort.Sort(sort.Reverse(sort.IntSlice(buildIDs)))`: the build IDs in
descending order. -/
def sortReverse (buildIDs : List Int) : List Int :=
  buildIDs.insertionSort (fun a b => b ≤ a)

/-- The loop over the sorted build IDs in `getLatestValidBuild`. -/
def scanBuilds (s : JobStore) (now : Int) (repo : String) : List Int → Int × Option Error
  | [] => (0, some Error.noLogsFound)
  | buildID :: rest =>
    -- check if reports exist for this build
    if (getReportPaths s buildID repo).length = 0 then scanBuilds s now repo rest
    else
      -- check if this report is too old
      match s.startTime buildID with
      | none => scanBuilds s now repo rest
      | some startTimeInt =>
        if timeSince now startTimeInt < maxElapsedTime then (buildID, none)
        else (0, some Error.outdated)

/-- The function `getLatestValidBuild`, at clock value `now`. -/
def getLatestValidBuild (s : JobStore) (now : Int) (repo : String) : Int × Option Error :=
  -- check latest build first, before looking to older builds
  match s.latestBuildNumber with
  | some buildID =>
    if (getReportPaths s buildID repo).length ≠ 0 then (buildID, none)
    else scanBuilds s now repo (sortReverse s.buildIDs)
  | none => scanBuilds s now repo (sortReverse s.buildIDs)

/-- The function `readJSONReport`: `Except.error err` is the return `nil, err`,
`Except.ok report` the return `report, nil`. -/
def readJSONReport (s : JobStore) (build : Int) (file : String) : Except Error Report :=
  match s.readFile build file with
  | Except.error err => Except.error err
  | Except.ok contents =>
    match s.unmarshal contents with
    | Except.error err => Except.error err
    | Except.ok report => Except.ok report

/-- The loop of `GetFlakyTestReport` over the report paths, from the reports
collected so far. -/
def collectReports (s : JobStore) (build : Int) :
    List Report → List String → List Report × Option Error
  | reports, [] => (reports, none)
  | reports, filepath :: rest =>
    match readJSONReport s build filepath with
    | Except.error err => ([], some err)
    | Except.ok report => collectReports s build (reports ++ [report]) rest

/-- The function `GetFlakyTestReport`, at clock value `now`. -/
def GetFlakyTestReport (s : JobStore) (now : Int) (repo : String) (buildID : Int) :
    List Report × Option Error :=
  if buildID = -1 then
    match getLatestValidBuild s now repo with
    | (_, some err) => ([], some err)
    | (latest, none) => collectReports s latest [] (getReportPaths s latest repo)
  else collectReports s buildID [] (getReportPaths s buildID repo)

/-- The function `ParseFlakyLog`; the callback `f report &result` is the
function from the old value of `result` to the new one. -/
def ParseFlakyLog (s : JobStore) (now : Int) (repo : String) (buildID : Int)
    (f : Report → List String → List String) :
    List Report × List String × Option Error :=
  let parsedResults : List String := []
  match GetFlakyTestReport s now repo buildID with
  | (results, some err) => (results, parsedResults, some err)
  | (results, none) =>
    if results.length = 0 then (results, parsedResults, none)
    else (results, results.foldl (fun acc r => f r acc) parsedResults, none)

/-! ## metrics/executions -/

/-- The struct `Status`: one status event of a pull request. -/
structure Status where
  State : String
  Context : String
deriving DecidableEq, Repr

/-- The function `filterStatuses`: the map from each context to the state of
the first status of the list with that context, as the association list of its
entries in insertion order. -/
def filterStatuses (statuses : List Status) : List (String × String) :=
  statuses.foldl
    (fun filteredStatuses status =>
      match filteredStatuses.lookup status.Context with
      | some _ => filteredStatuses
      | none => filteredStatuses ++ [(status.Context, status.State)])
    []

/-- The body of the `range` loop of `getPRStatus` on one map entry
`(job, status)`, from the current `(integrationStatus, overallStatus)`. -/
def statusStep (acc : String × String) (entry : String × String) : String × String :=
  let integrationStatus := acc.1
  let overallStatus := acc.2
  let job := entry.1
  -- consider errors as failures
  let status := if entry.2 = "error" then "failure" else entry.2
  -- do not consider CLAs or Tide in determining status
  if job = "cla/google" ∨ job = "tide" then acc
  else
    -- set integration to whatever it is
    let integrationStatus :=
      if job = "pull-knative-serving-integration-tests" then status else integrationStatus
    -- if overall is empty or success, anything replaces it
    if overallStatus = "" ∨ overallStatus = "success" then (integrationStatus, status)
    -- if overall is pending, anything but success replaces it
    else if overallStatus = "pending" ∧ status ≠ "success" then (integrationStatus, status)
    else (integrationStatus, overallStatus)

/-- The `range` loop of `getPRStatus` when it visits the entries of the map in
the order `visited`: the returned `(integrationStatus, overallStatus)`. -/
def getPRStatusLoop (visited : List (String × String)) : String × String :=
  visited.foldl statusStep ("", "")

/-- The pair `r` is a possible result `(integrationStatus, overallStatus)` of
`getPRStatus` when the request succeeds and decodes to `statuses`: the loop
visits the entries of `filterStatuses statuses` in some order. -/
def IsPRStatus (statuses : List Status) (r : String × String) : Prop :=
  ∃ visited : List (String × String),
    visited.Perm (filterStatuses statuses) ∧ getPRStatusLoop visited = r

/-- The function `getPRStatus` on the decoded `statuses` when `range` visits the
map in insertion order (one of the orders Go may choose). -/
def getPRStatus (statuses : List Status) : String × String :=
  getPRStatusLoop (filterStatuses statuses)

/-- A state of the GitHub status API: `success`, `pending`, `failure` or `error`. -/
def validState (state : String) : Prop :=
  state = "success" ∨ state = "pending" ∨ state = "failure" ∨ state = "error"

instance (state : String) : Decidable (validState state) := by
  unfold validState; infer_instance

/-- The contexts `getPRStatus` leaves out: `cla/google` and `tide`. -/
def excluded (job : String) : Prop :=
  job = "cla/google" ∨ job = "tide"

instance (job : String) : Decidable (excluded job) := by
  unfold excluded; infer_instance

/-! ## Auxiliary definitions for the status aggregator -/

/-- The entries a first-write-wins pass over the statuses keeps: each context
with the state of its first status, in order of first occurrence. -/
def firstPerContext : List Status → List (String × String)
  | [] => []
  | e :: l => (e.Context, e.State) :: (firstPerContext l).filter (fun p => !decide (p.1 = e.Context))

/-- The statuses of the list whose context is neither `cla/google` nor `tide`. -/
def dropExcluded (statuses : List Status) : List Status :=
  statuses.filter (fun e => decide (¬ excluded e.Context))

/-- The map entry is not excluded and its state is `failure` or `error`. -/
def countsFailure (p : String × String) : Bool :=
  !decide (excluded p.1) && (decide (p.2 = "failure") || decide (p.2 = "error"))

/-- The map entry is not excluded and its state is `pending`. -/
def countsPending (p : String × String) : Bool :=
  !decide (excluded p.1) && decide (p.2 = "pending")

/-- The map entry is not excluded and its state is `success`. -/
def countsSuccess (p : String × String) : Bool :=
  !decide (excluded p.1) && decide (p.2 = "success")

/-- Statuses, newest first, in which a failure of `ctx1` is superseded by a newer
success of the same context. -/
def supersededFailure : List Status :=
  [⟨"success", "ctx1"⟩, ⟨"failure", "ctx1"⟩]

/-- Statuses in which `ctx1` carries a state outside the four states of the
status API. -/
def unknownState : List Status :=
  [⟨"queued", "ctx1"⟩, ⟨"failure", "ctx2"⟩]

/-- The statuses of the end-to-end scenario, newest first. -/
def scenarioEvents : List Status :=
  [⟨"failure", "ctx1"⟩, ⟨"success", "ctx1"⟩, ⟨"success", "ctx2"⟩]

/-- Statuses with the two administrative contexts among the test contexts. -/
def withAdminChecks : List Status :=
  [⟨"failure", "tide"⟩, ⟨"success", "pull-knative-serving-integration-tests"⟩,
   ⟨"pending", "cla/google"⟩, ⟨"pending", "pull-knative-serving-unit-tests"⟩]

/-! ## Auxiliary definitions for the report locator -/

/-- The build has a matching artifact and its start time can be read. -/
def datedMatch (s : JobStore) (repo : String) (buildID : Int) : Bool :=
  decide ((getReportPaths s buildID repo).length ≠ 0) && (s.startTime buildID).isSome

/-- The verdict of the scan on the build it stops at. -/
def verdict (s : JobStore) (now : Int) (buildID : Int) : Int × Option Error :=
  match s.startTime buildID with
  | none => (0, some Error.noLogsFound)
  | some startTimeInt =>
    if timeSince now startTimeInt < maxElapsedTime then (buildID, none)
    else (0, some Error.outdated)

/-! ## Stores used as concrete inputs -/

/-- A store in which the latest build 3 has no report, build 2 has a report for
`serving` and started at second 0, and the older build 1 has a report too and
started at second `4 * 86400`. -/
def staleStore : JobStore where
  latestBuildNumber := some 3
  buildIDs := [1, 3, 2]
  storagePath := fun _ => "gs://logs/"
  artifacts := fun id =>
    if id = 1 ∨ id = 2 then ["gs://logs/artifacts/serving/flaky-tests.json"] else []
  startTime := fun id => if id = 1 then some (4 * 86400) else some 0
  readFile := fun _ _ => Except.error (Error.readFailed "unavailable")
  unmarshal := fun _ => Except.error (Error.decodeFailed "unavailable")

/-- A store whose latest build 7 has a report for `serving` and started at
second 0; no other build is listed. -/
def oldLatestStore : JobStore where
  latestBuildNumber := some 7
  buildIDs := []
  storagePath := fun _ => "gs://logs/"
  artifacts := fun id =>
    if id = 7 then ["gs://logs/artifacts/serving/flaky-tests.json"] else []
  startTime := fun _ => some 0
  readFile := fun _ _ => Except.error (Error.readFailed "unavailable")
  unmarshal := fun _ => Except.error (Error.decodeFailed "unavailable")

/-- A store in which the latest build 2 has no report and the only build with a
report for `serving`, build 1, has no readable start time. -/
def undatedStore : JobStore where
  latestBuildNumber := some 2
  buildIDs := [1, 2]
  storagePath := fun _ => "gs://logs/"
  artifacts := fun id =>
    if id = 1 then ["gs://logs/artifacts/serving/flaky-tests.json"] else []
  startTime := fun _ => none
  readFile := fun _ _ => Except.error (Error.readFailed "unavailable")
  unmarshal := fun _ => Except.error (Error.decodeFailed "unavailable")

/-- A store with readable reports. Build 5, the latest, holds a report for
`serving` and one for `eventing`, both readable. Build 6 holds the same two
artifacts but the second cannot be read. The decoder knows the two contents. -/
def reportStore : JobStore where
  latestBuildNumber := some 5
  buildIDs := [5]
  storagePath := fun _ => "gs://logs/"
  artifacts := fun id =>
    if id = 5 ∨ id = 6 then
      ["gs://logs/artifacts/serving/flaky-tests.json",
       "gs://logs/artifacts/eventing/flaky-tests.json"]
    else []
  startTime := fun _ => some 0
  readFile := fun id file =>
    if file = "artifacts/serving/flaky-tests.json" then
      Except.ok "\x7b\"repo\":\"serving\",\"flaky\":[\"TestA\",\"TestB\"]\x7d"
    else if file = "artifacts/eventing/flaky-tests.json" ∧ id = 5 then
      Except.ok "\x7b\"repo\":\"eventing\",\"flaky\":[\"TestC\"]\x7d"
    else Except.error (Error.readFailed "object does not exist")
  unmarshal := fun contents =>
    if contents = "\x7b\"repo\":\"serving\",\"flaky\":[\"TestA\",\"TestB\"]\x7d" then
      Except.ok ⟨"serving", ["TestA", "TestB"]⟩
    else if contents = "\x7b\"repo\":\"eventing\",\"flaky\":[\"TestC\"]\x7d" then
      Except.ok ⟨"eventing", ["TestC"]⟩
    else Except.error (Error.decodeFailed "unexpected end of JSON input")

/-- The extraction callback that appends the flaky test names of a report. -/
def appendFlaky (report : Report) (result : List String) : List String :=
  result ++ report.Flaky

/-! ## metrics/executions: the retry comment -/

/-- Go `strings.Contains s substr`. -/
def contains (s substr : String) : Bool :=
  decide (substr.data <:+: s.data)

/-- An ASCII decimal digit, what `\d` matches in a Go regular expression. -/
def isDigit (c : Char) : Bool :=
  decide ('0'.toNat ≤ c.toNat ∧ c.toNat ≤ '9'.toNat)

/-- Go `re.Find` for the expression `\d\/\d`: the leftmost digit, slash, digit
in the text, or `none` (the `nil` slice) when there is no match. -/
def findDigitSlashDigit : List Char → Option (List Char)
  | a :: b :: c :: rest =>
    if isDigit a = true ∧ b = '/' ∧ isDigit c = true then some [a, b, c]
    else findDigitSlashDigit (b :: c :: rest)
  | _ => none

/-- The value of a decimal digit string, `none` when some character is not a
digit. -/
def digitsValue : List Char → Nat → Option Nat
  | [], n => some n
  | c :: cs, n => if isDigit c then digitsValue cs (n * 10 + (c.toNat - '0'.toNat)) else none

/-- The integer returned by Go `strconv.Atoi s`, the error being dropped: the
value of an optionally signed non-empty decimal digit string, saturated to the
range of a 64-bit `int`, and 0 on a syntax error. -/
def atoi (s : List Char) : Int :=
  let signed (negative : Bool) (ds : List Char) : Int :=
    match ds with
    | [] => 0
    | _ :: _ =>
      match digitsValue ds 0 with
      | none => 0
      | some n =>
        if negative then (if 2 ^ 63 < n then -(2 ^ 63) else -(n : Int))
        else (if 2 ^ 63 - 1 < n then 2 ^ 63 - 1 else (n : Int))
  match s with
  | [] => 0
  | '-' :: ds => signed true ds
  | '+' :: ds => signed false ds
  | _ => signed false s

/-- What the code reads of a `github.IssueComment`: `GetUser().GetID()` and
`GetBody()`. A `nil` comment is `none`. -/
structure IssueComment where
  UserID : Int
  Body : String
deriving DecidableEq, Repr

/-- The constant `botID`: knative test reporter robot user ID. -/
def botID : Int := 48565599

/-- The function `filterComments` of metrics/executions: find the bot comment in
the list of comments on a pull request. -/
def filterComments : List IssueComment → Option IssueComment
  | [] => none
  | comment :: rest =>
    if comment.UserID = botID then some comment else filterComments rest

/-- The function `getRetryAttempts`: the number of attempts parsed from the
body of the comment of the retryer. -/
def getRetryAttempts (comment : Option IssueComment) : Int :=
  match comment with
  | none => 0
  | some c =>
    let found : List Char := (findDigitSlashDigit c.Body.data).getD []
    let attemptString := (splitSlash found).headD []
    atoi attemptString

/-- The function `getRetryerState`. -/
def getRetryerState (comment : Option IssueComment) : String :=
  match comment with
  | none => "nil"
  | some c =>
    if contains c.Body "/test" then "retried"
    else if contains c.Body "non-flaky" then "blocked"
    else if contains c.Body "expended" then "expended"
    else "nil"

/-- A bot comment whose body contains both `/test` and `expended`. -/
def retriedAndExpended : IssueComment :=
  ⟨botID, "Retry budget expended after /test pull-knative-serving-integration-tests 3/3"⟩

/-! ## Auxiliary definitions for deduplication and the integration status -/

/-- The sublist of the statuses that keeps only the first status of each
context, in the original relative order. -/
def dedupByContext : List Status → List Status
  | [] => []
  | e :: l => e :: (dedupByContext l).filter (fun x => !decide (x.Context = e.Context))

/-- The context whose state `getPRStatus` returns as integration status. -/
def integrationJob : String := "pull-knative-serving-integration-tests"

/-- The state as the loop of `getPRStatus` considers it: `error` is `failure`. -/
def normalizeState (state : String) : String :=
  if state = "error" then "failure" else state

/-- Statuses, newest first, with a repeated context and an integration error. -/
def repeatedEvents : List Status :=
  [⟨"pending", "pull-knative-serving-unit-tests"⟩,
   ⟨"error", "pull-knative-serving-integration-tests"⟩,
   ⟨"success", "pull-knative-serving-unit-tests"⟩,
   ⟨"success", "pull-knative-serving-integration-tests"⟩,
   ⟨"success", "tide"⟩]

/-! ## Further stores and auxiliary definitions for the report locator -/

/-- The build has a matching artifact but its start time cannot be read: the
scan of `getLatestValidBuild` passes over it. -/
def undated (s : JobStore) (repo : String) (buildID : Int) : Bool :=
  decide ((getReportPaths s buildID repo).length ≠ 0) && (s.startTime buildID).isNone

/-- The store with the undated builds removed from the listed build IDs. -/
def withoutUndated (s : JobStore) (repo : String) : JobStore :=
  { s with buildIDs := s.buildIDs.filter (fun id => !undated s repo id) }

/-- A store in which the newest build with a report has no readable start time
and an older one is fresh: the latest build 4 has no report, builds 3 and 1
have a report for `serving`, build 3 has no readable start time and build 1
started at second 0. -/
def mixedStore : JobStore where
  latestBuildNumber := some 4
  buildIDs := [1, 2, 3, 4]
  storagePath := fun _ => "gs://logs/"
  artifacts := fun id =>
    if id = 1 ∨ id = 3 then ["gs://logs/artifacts/serving/flaky-tests.json"] else []
  startTime := fun id => if id = 3 then none else some 0
  readFile := fun _ _ => Except.error (Error.readFailed "unavailable")
  unmarshal := fun _ => Except.error (Error.decodeFailed "unavailable")

/-- A store whose build 1 holds the reports of the repositories `serving` and
`knative-serving`. -/
def twoRepoStore : JobStore where
  latestBuildNumber := some 1
  buildIDs := [1]
  storagePath := fun _ => "gs://logs/"
  artifacts := fun id =>
    if id = 1 then
      ["gs://logs/artifacts/knative-serving/flaky-tests.json",
       "gs://logs/artifacts/serving/flaky-tests.json"]
    else []
  startTime := fun _ => some 0
  readFile := fun _ _ => Except.error (Error.readFailed "unavailable")
  unmarshal := fun _ => Except.error (Error.decodeFailed "unavailable")

/-! ## metrics/ratios -/

namespace Ratios

/-- The calendar day of a time (nanoseconds since the epoch of a fixed time
zone whose days last 24 hours), counted from the epoch: the key that
`Format("2006-01-02")` produces. -/
def dayOf (t : Int) : Int := t / dayNs

/-- The zero value of `time.Time` (1 January of year 1), which `GetMergedAt`
returns for a pull request that was not merged. -/
def zeroTime : Int := -62135596800 * 1000000000

/-- What the code reads of a `github.PullRequest`: `GetMergedAt()` and the
result of `ListComments` for it (`none` when the request fails). -/
structure PullRequest where
  MergedAt : Int
  Comments : Option (List IssueComment)
deriving DecidableEq, Repr

/-- The type `Data`: the map from a day to its counters `(prs, retries)`, as
the association list of its entries. -/
abbrev Data := List (Int × (Nat × Nat))

/-- The assignment `data[key] = value` on the map. -/
def setEntry (data : Data) (key : Int) (value : Nat × Nat) : Data :=
  match data.lookup key with
  | none => data ++ [(key, value)]
  | some _ => data.map (fun entry => if entry.1 = key then (key, value) else entry)

/-- The loop of `initData` from the date `date`, run for at most `fuel`
iterations. -/
def initDataLoop (now : Int) : Nat → Int → Data → Data
  | 0, _, data => data
  | fuel + 1, date, data =>
    if date < now then initDataLoop now fuel (date + dayNs) (setEntry data (dayOf date) (0, 0))
    else data

/-- The function `initData`: zero values for each day from the start time to
now. The number of iterations allowed is one more than the number of whole
days between the two times, which the loop never exhausts. -/
def initData (startTime now : Int) : Data :=
  initDataLoop now ((now - startTime) / dayNs + 1).toNat startTime []

/-- The function `getPullRequests`: the listed pull requests merged after the
start time. -/
def getPullRequests (startTime : Int) (prs : List PullRequest) : List PullRequest :=
  prs.filter (fun pr => decide (pr.MergedAt ≠ zeroTime) && decide (startTime < pr.MergedAt))

/-- The variable `botIDs`: knative robot user IDs. -/
def botIDs : List Int := [48565599, 41213312]

/-- The function `filterComments` of metrics/ratios: the comments with a
`/test pull-knative-` string made by real people. -/
def filterComments (comments : List IssueComment) : List IssueComment :=
  comments.filter (fun comment =>
    contains comment.Body "/test pull-knative-" &&
      decide (comment.UserID ≠ botIDs.getD 0 0) && decide (comment.UserID ≠ botIDs.getD 1 0))

/-- The two increments of `main` for one pull request with `retries` filtered
comments: `none` when the bucket of the merge day is missing from the map, the
`nil` pointer dereference that stops the program. -/
def countPR (data : Data) (mergedAt : Int) (retries : Nat) : Option Data :=
  match data.lookup (dayOf mergedAt) with
  | none => none
  | some (prs, r) => some (setEntry data (dayOf mergedAt) (prs + 1, r + retries))

/-- The loop of `main` over the pull requests: a pull request whose comments
cannot be fetched is skipped. -/
def countPRs : Data → List PullRequest → Option Data
  | data, [] => some data
  | data, pr :: rest =>
    match pr.Comments with
    | none => countPRs data rest
    | some comments =>
      match countPR data pr.MergedAt (filterComments comments).length with
      | none => none
      | some data2 => countPRs data2 rest

/-- The function `main` up to the writing of the file, for the start time
`startTime`, the clock value `now` and the listed pull requests: the counters,
or `none` when the program stops on a `nil` pointer. -/
def run (startTime now : Int) (prs : List PullRequest) : Option Data :=
  countPRs (initData startTime now) (getPullRequests startTime prs)

/-- A pull request merged at 08:00 on day 2, with one retry comment by a
person and one by the bot. -/
def morningPR : PullRequest :=
  ⟨2 * dayNs + 8 * hourNs,
   some [⟨7, "/test pull-knative-serving-unit-tests"⟩,
         ⟨48565599, "/test pull-knative-serving-unit-tests"⟩]⟩

end Ratios

/-- A store in which the latest build 2 has no report and build 1 has a report
for `serving` and the start time `2 ^ 63 - 1`, the greatest int64. -/
def farFutureStore : JobStore where
  latestBuildNumber := some 2
  buildIDs := [1, 2]
  storagePath := fun _ => "gs://logs/"
  artifacts := fun id =>
    if id = 1 then ["gs://logs/artifacts/serving/flaky-tests.json"] else []
  startTime := fun _ => some 9223372036854775807
  readFile := fun _ _ => Except.error (Error.readFailed "unavailable")
  unmarshal := fun _ => Except.error (Error.decodeFailed "unavailable")

/-! ## Properties of the report locator -/

theorem scanBuilds_eq_find (s : JobStore) (now : Int) (repo : String) (l : List Int) :
    scanBuilds s now repo l =
      match l.find? (datedMatch s repo) with
      | none => (0, some Error.noLogsFound)
      | some b => verdict s now b := by
  induction l with
  | nil => simp [scanBuilds]
  | cons x xs ih =>
    by_cases hm : (getReportPaths s x repo).length = 0
    · simp [scanBuilds, hm, datedMatch, List.find?, ih]
    · cases hst : s.startTime x with
      | none => simp [scanBuilds, hm, datedMatch, List.find?, ih, hst]
      | some t => simp [scanBuilds, hm, datedMatch, List.find?, hst, verdict]

theorem find_sorted_max (p : Int → Bool) (b : Int) (l : List Int)
    (hs : l.Pairwise (fun x y => y ≤ x)) (hb : b ∈ l) (hp : p b = true)
    (hmax : ∀ x ∈ l, p x = true → x ≤ b) : l.find? p = some b := by
  induction l with
  | nil => simp at hb
  | cons x xs ih =>
    rw [List.pairwise_cons] at hs
    by_cases hx : p x = true
    · have h1 : x ≤ b := hmax x (List.mem_cons_self _ _) hx
      rcases List.mem_cons.1 hb with h | h
      · simp [List.find?, ← h, hp]
      · have h2 : b ≤ x := hs.1 b h
        have : x = b := le_antisymm h1 h2
        simp [List.find?, this, hp]
    · have hne : b ≠ x := by
        intro h; rw [h] at hp; exact hx hp
      have hb2 : b ∈ xs := by
        rcases List.mem_cons.1 hb with h | h
        · exact absurd h hne
        · exact h
      have := ih hs.2 hb2 (fun y hy => hmax y (List.mem_cons_of_mem _ hy))
      simp [List.find?, hx, this]

theorem sortReverse_pairwise (l : List Int) :
    (sortReverse l).Pairwise (fun x y => y ≤ x) := by
  have h := List.sorted_insertionSort (fun a b : Int => b ≤ a) l
  exact h

theorem mem_sortReverse (l : List Int) (x : Int) : x ∈ sortReverse l ↔ x ∈ l :=
  (List.perm_insertionSort (fun a b : Int => b ≤ a) l).mem_iff

theorem getLatestValidBuild_of_no_latest (s : JobStore) (now : Int) (repo : String)
    (hlatest : ∀ id, s.latestBuildNumber = some id → getReportPaths s id repo = []) :
    getLatestValidBuild s now repo = scanBuilds s now repo (sortReverse s.buildIDs) := by
  unfold getLatestValidBuild
  cases h : s.latestBuildNumber with
  | none => rfl
  | some id => simp [hlatest id h]

theorem timeSince_lt_iff (now startSec : Int)
    (hlo : -(2 ^ 63) ≤ startSec) (hhi : startSec < 2 ^ 63 - 62135596800) :
    timeSince now startSec < maxElapsedTime ↔ now - startSec * 1000000000 < 4 * dayNs := by
  have hunix : timeUnix startSec = startSec + 62135596800 := by
    unfold timeUnix wrapInt64 unixToInternal
    norm_num at hlo hhi ⊢
    omega
  unfold timeSince
  rw [hunix]
  unfold maxElapsedTime maxAge dayNs hourNs minDuration maxDuration unixToInternal
  simp only []
  norm_num
  split_ifs <;> omega

theorem getLatestValidBuild_at_first_dated (s : JobStore) (now : Int) (repo : String)
    (b startSec : Int)
    (hlatest : ∀ id, s.latestBuildNumber = some id → getReportPaths s id repo = [])
    (hb : b ∈ s.buildIDs) (hmatch : getReportPaths s b repo ≠ [])
    (hmax : ∀ id ∈ s.buildIDs, getReportPaths s id repo ≠ [] →
      (s.startTime id).isSome = true → id ≤ b)
    (hstart : s.startTime b = some startSec)
    (hlo : -(2 ^ 63) ≤ startSec) (hhi : startSec < 2 ^ 63 - 62135596800) :
    getLatestValidBuild s now repo =
      if now - startSec * 1000000000 < 4 * dayNs then (b, none)
      else (0, some Error.outdated) := by
  have hfind : (sortReverse s.buildIDs).find? (datedMatch s repo) = some b := by
    apply find_sorted_max _ _ _ (sortReverse_pairwise _) ((mem_sortReverse _ _).2 hb)
    · simp [datedMatch, hstart, hmatch]
    · intro x hx hpx
      simp only [datedMatch, Bool.and_eq_true, decide_eq_true_eq] at hpx
      apply hmax x ((mem_sortReverse _ _).1 hx) _ hpx.2
      intro h0
      exact hpx.1 (by simp [h0])
  rw [getLatestValidBuild_of_no_latest s now repo hlatest, scanBuilds_eq_find, hfind]
  simp only [verdict, hstart, timeSince_lt_iff now startSec hlo hhi]

/-- C1, as stated, fails on `farFutureStore` at the clock value of 1 January
2000: the latest build has no matching artifact, every start time can be
read, build 1 is the greatest listed ID with a matching artifact, and now minus
its start time `2 ^ 63 - 1` is below the threshold; yet the call fails with
the outdated error, because `time.Unix` wraps that start time around to a
time in the far past. -/
theorem staleness_counterexample :
    (∀ id, farFutureStore.latestBuildNumber = some id →
      getReportPaths farFutureStore id "serving" = []) ∧
    (∀ id ∈ farFutureStore.buildIDs, (farFutureStore.startTime id).isSome = true) ∧
    1 ∈ farFutureStore.buildIDs ∧ getReportPaths farFutureStore 1 "serving" ≠ [] ∧
    (∀ id ∈ farFutureStore.buildIDs, getReportPaths farFutureStore id "serving" ≠ [] →
      id ≤ 1) ∧
    farFutureStore.startTime 1 = some 9223372036854775807 ∧
    946684800 * 1000000000 - 9223372036854775807 * 1000000000 < 4 * dayNs ∧
    getLatestValidBuild farFutureStore (946684800 * 1000000000) "serving" =
      (0, some Error.outdated) := by
  decide

/-- C1, amended. Staleness rule of `getLatestValidBuild`: when the probe of the
latest build finds no matching artifact and `b` is the greatest listed build ID
with a matching artifact, with a start time `startSec` that `time.Unix` holds
without wrapping around (an int64 below `2 ^ 63 - 62135596800`), the call
returns `b` if the age `now - startSec` is below 4 days and fails with the
outdated error if the age is above 4 days, whatever the builds with smaller
IDs contain. -/
theorem getLatestValidBuild_staleness (s : JobStore) (now : Int) (repo : String)
    (b startSec : Int)
    (hlatest : ∀ id, s.latestBuildNumber = some id → getReportPaths s id repo = [])
    (hb : b ∈ s.buildIDs) (hmatch : getReportPaths s b repo ≠ [])
    (hmax : ∀ id ∈ s.buildIDs, getReportPaths s id repo ≠ [] → id ≤ b)
    (hstart : s.startTime b = some startSec)
    (hlo : -(2 ^ 63) ≤ startSec) (hhi : startSec < 2 ^ 63 - 62135596800) :
    (now - startSec * 1000000000 < 4 * dayNs →
      getLatestValidBuild s now repo = (b, none)) ∧
    (4 * dayNs < now - startSec * 1000000000 →
      getLatestValidBuild s now repo = (0, some Error.outdated)) := by
  rw [getLatestValidBuild_at_first_dated s now repo b startSec hlatest hb hmatch
    (fun id hid hm _ => hmax id hid hm) hstart hlo hhi]
  constructor
  · intro h
    rw [if_pos h]
  · intro h
    rw [if_neg (by omega)]

/-- Witness of C1 (amended) on `staleStore`: at 3 days after second 0 build 2
is returned; at 5 days the call fails as outdated although build 1 is then only
one day old. -/
theorem getLatestValidBuild_staleness_witness :
    getLatestValidBuild staleStore (3 * dayNs) "serving" = (2, none) ∧
    getLatestValidBuild staleStore (5 * dayNs) "serving" = (0, some Error.outdated) ∧
    getReportPaths staleStore 1 "serving" ≠ [] ∧
    5 * dayNs - 4 * 86400 * 1000000000 < 4 * dayNs :=
  ⟨(getLatestValidBuild_staleness staleStore (3 * dayNs) "serving" 2 0
      (by decide) (by decide) (by decide) (by decide) (by decide) (by decide)
      (by decide)).1 (by decide),
   (getLatestValidBuild_staleness staleStore (5 * dayNs) "serving" 2 0
      (by decide) (by decide) (by decide) (by decide) (by decide) (by decide)
      (by decide)).2 (by decide),
   by decide, by decide⟩

theorem getLatestValidBuild_of_latest (s : JobStore) (now : Int) (repo : String)
    (latest : Int) (hlatest : s.latestBuildNumber = some latest)
    (hmatch : getReportPaths s latest repo ≠ []) :
    getLatestValidBuild s now repo = (latest, none) := by
  unfold getLatestValidBuild
  simp [hlatest, hmatch]

/-- C6. The freshest build is accepted without an age check: when the latest
build number is obtained and that build has a matching artifact,
`getLatestValidBuild` returns it with no error, at every clock value and
whatever the start times and the other builds are. -/
theorem getLatestValidBuild_latest_accepted (s : JobStore) (now : Int) (repo : String)
    (latest : Int) (hlatest : s.latestBuildNumber = some latest)
    (hmatch : getReportPaths s latest repo ≠ []) :
    getLatestValidBuild s now repo = (latest, none) :=
  getLatestValidBuild_of_latest s now repo latest hlatest hmatch

/-- Witness of C6 on `oldLatestStore`: the latest build is returned 400 days
after its start. -/
theorem getLatestValidBuild_latest_accepted_witness :
    getLatestValidBuild oldLatestStore (400 * dayNs) "serving" = (7, none) :=
  getLatestValidBuild_latest_accepted oldLatestStore (400 * dayNs) "serving" 7
    (by decide) (by decide)

/-- C7, as stated, fails on `undatedStore`: the call fails with the not-found
error although the listed build 1 has a matching artifact. -/
theorem notFound_iff_nothing_matches_counterexample :
    ¬ ((getLatestValidBuild undatedStore 0 "serving").2 = some Error.noLogsFound ↔
        ((∀ id, undatedStore.latestBuildNumber = some id →
            getReportPaths undatedStore id "serving" = []) ∧
          ∀ id ∈ undatedStore.buildIDs, getReportPaths undatedStore id "serving" = [])) := by
  decide

/-- C7, amended. `getLatestValidBuild` fails with the not-found error exactly
when the probe of the latest build finds no matching artifact and every listed
build with a matching artifact has an unreadable start time. -/
theorem getLatestValidBuild_notFound_iff (s : JobStore) (now : Int) (repo : String) :
    (getLatestValidBuild s now repo).2 = some Error.noLogsFound ↔
      ((∀ id, s.latestBuildNumber = some id → getReportPaths s id repo = []) ∧
        ∀ id ∈ s.buildIDs, getReportPaths s id repo ≠ [] → s.startTime id = none) := by
  constructor
  · intro h
    have hl : ∀ id, s.latestBuildNumber = some id → getReportPaths s id repo = [] := by
      intro id hid
      by_contra hne
      rw [getLatestValidBuild_of_latest s now repo id hid hne] at h
      simp at h
    refine ⟨hl, ?_⟩
    rw [getLatestValidBuild_of_no_latest s now repo hl, scanBuilds_eq_find] at h
    cases hf : (sortReverse s.buildIDs).find? (datedMatch s repo) with
    | none =>
      intro id hid hne
      have := List.find?_eq_none.1 hf id ((mem_sortReverse _ _).2 hid)
      cases hst : s.startTime id with
      | none => rfl
      | some t => simp [datedMatch, hst, hne] at this
    | some b =>
      exfalso
      rw [hf] at h
      have hb := List.find?_some hf
      simp only [datedMatch, Bool.and_eq_true, Option.isSome_iff_exists] at hb
      obtain ⟨t, ht⟩ := hb.2
      simp only [verdict, ht] at h
      split_ifs at h
      simp at h
  · rintro ⟨hl, hall⟩
    rw [getLatestValidBuild_of_no_latest s now repo hl, scanBuilds_eq_find]
    have hf : (sortReverse s.buildIDs).find? (datedMatch s repo) = none := by
      rw [List.find?_eq_none]
      intro x hx
      have hx2 := (mem_sortReverse _ _).1 hx
      by_cases hne : getReportPaths s x repo = []
      · simp [datedMatch, hne]
      · simp [datedMatch, hall x hx2 hne]
    rw [hf]

/-! ## Properties of `getReportPaths` -/

theorem foldl_matches (p : String → Bool) (g : String → String) (l acc : List String) :
    l.foldl (fun matched a => if p a then matched ++ [g a] else matched) acc =
      acc ++ (l.filter p).map g := by
  induction l generalizing acc with
  | nil => simp
  | cons x xs ih =>
    by_cases hx : p x = true
    · simp [List.foldl, hx, ih, List.filter]
    · simp [List.foldl, hx, ih, List.filter]

theorem getReportPaths_eq_filter (s : JobStore) (build : Int) (repo : String) :
    getReportPaths s build repo =
      ((s.artifacts build).filter (fun a => hasSuffix a (pathJoin repo filename))).map
        (fun a => trimPrefix a (s.storagePath build)) := by
  unfold getReportPaths
  simp only []
  rw [foldl_matches (fun a => hasSuffix a (pathJoin repo filename))
    (fun a => trimPrefix a (s.storagePath build))]
  simp

theorem splitSlash_append (r t : List Char) (hr : '/' ∉ r) :
    splitSlash (r ++ '/' :: t) = r :: splitSlash t := by
  induction r with
  | nil => simp [splitSlash]
  | cons c cs ih =>
    have hc : c ≠ '/' := fun h => hr (by simp [h])
    have hcs : '/' ∉ cs := fun h => hr (List.mem_cons_of_mem _ h)
    simp [splitSlash, hc, ih hcs]

theorem cleanChars_plain (r : List Char) (hne : r ≠ []) (hslash : '/' ∉ r)
    (hdot : r ≠ ['.']) (hdotdot : r ≠ ['.', '.']) :
    cleanChars (r ++ '/' :: filename.data) = r ++ '/' :: filename.data := by
  have hsplit : splitSlash (r ++ '/' :: filename.data) = [r, filename.data] := by
    have hf : splitSlash filename.data = [filename.data] := by decide
    rw [splitSlash_append r _ hslash, hf]
  have hhead : (r ++ '/' :: filename.data).head? ≠ some '/' := by
    cases r with
    | nil => exact absurd rfl hne
    | cons c cs =>
      intro h
      apply hslash
      simp only [List.cons_append, List.head?_cons, Option.some.injEq] at h
      simp [h]
  have hfold : [r, filename.data].foldl (cleanStep false) [] = [filename.data, r] := by
    have h1 : cleanStep false [] r = [r] := by simp [cleanStep, hne, hdot, hdotdot]
    have h2 : cleanStep false [r] filename.data = [filename.data, r] := by
      simp [cleanStep, filename]
    simp [List.foldl, h1, h2]
  have hnil : r ++ '/' :: filename.data ≠ [] := by simp
  have hrooted : decide ((r ++ '/' :: filename.data).head? = some '/') = false :=
    decide_eq_false hhead
  unfold cleanChars
  simp only [if_neg hnil, hsplit, hrooted, hfold]
  simp [joinSlash]

theorem pathJoin_plain (repo : String) (hne : repo ≠ "") (hslash : '/' ∉ repo.data)
    (hdot : repo ≠ ".") (hdotdot : repo ≠ "..") :
    pathJoin repo filename = repo ++ "/flaky-tests.json" := by
  have h1 : repo.data ≠ [] := fun h => hne (String.ext h)
  have h2 : repo.data ≠ ['.'] := fun h => hdot (String.ext h)
  have h3 : repo.data ≠ ['.', '.'] := fun h => hdotdot (String.ext h)
  have hf : filename.data ≠ [] := by decide
  unfold pathJoin
  rw [if_neg (fun h => h1 h.1), if_neg h1, if_neg hf, cleanChars_plain _ h1 hslash h2 h3]
  apply String.ext
  simp [filename]

theorem pathJoin_empty : pathJoin "" filename = "flaky-tests.json" := by decide

/-- C8. Artifact matching of `getReportPaths`: for a repository name that is
non-empty, has no slash and is neither `.` nor `..`, the result is, in listing
order, the artifacts whose path ends with `<repo>/flaky-tests.json`, each with
the storage path of the build trimmed from its front; for the empty repository
name it is the artifacts whose path ends with `flaky-tests.json`. -/
theorem getReportPaths_matching (s : JobStore) (build : Int) :
    (∀ repo : String, repo ≠ "" → '/' ∉ repo.data → repo ≠ "." → repo ≠ ".." →
      getReportPaths s build repo =
        ((s.artifacts build).filter
            (fun a => decide ((repo ++ "/flaky-tests.json").data <:+ a.data))).map
          (fun a => trimPrefix a (s.storagePath build))) ∧
    getReportPaths s build "" =
      ((s.artifacts build).filter
          (fun a => decide ("flaky-tests.json".data <:+ a.data))).map
        (fun a => trimPrefix a (s.storagePath build)) := by
  constructor
  · intro repo hne hslash hdot hdotdot
    rw [getReportPaths_eq_filter, pathJoin_plain repo hne hslash hdot hdotdot]
    rfl
  · rw [getReportPaths_eq_filter, pathJoin_empty]
    rfl

/-- Witness of C8 on `staleStore` and the repository `serving`. -/
theorem getReportPaths_matching_witness :
    getReportPaths staleStore 2 "serving" = ["artifacts/serving/flaky-tests.json"] ∧
    getReportPaths staleStore 2 "serving" =
      ((staleStore.artifacts 2).filter
          (fun a => decide (("serving" ++ "/flaky-tests.json").data <:+ a.data))).map
        (fun a => trimPrefix a (staleStore.storagePath 2)) :=
  ⟨by decide,
   (getReportPaths_matching staleStore 2).1 "serving" (by decide) (by decide) (by decide)
     (by decide)⟩

/-! ## Properties of the report reader -/

theorem collectReports_ok (s : JobStore) (build : Int) (paths : List String) :
    ∀ (acc reports : List Report),
      paths.map (readJSONReport s build) = reports.map Except.ok →
      collectReports s build acc paths = (acc ++ reports, none) := by
  induction paths with
  | nil =>
    intro acc reports h
    cases reports with
    | nil => simp [collectReports]
    | cons r rs => simp at h
  | cons p ps ih =>
    intro acc reports h
    cases reports with
    | nil => simp at h
    | cons r rs =>
      simp only [List.map_cons, List.cons.injEq] at h
      simp only [collectReports, h.1]
      rw [ih (acc ++ [r]) rs h.2]
      simp

theorem collectReports_error (s : JobStore) (build : Int) (pre : List String) :
    ∀ (acc : List Report) (p : String) (post : List String) (err : Error),
      (∀ q ∈ pre, ∃ r, readJSONReport s build q = Except.ok r) →
      readJSONReport s build p = Except.error err →
      collectReports s build acc (pre ++ p :: post) = ([], some err) := by
  induction pre with
  | nil =>
    intro acc p post err _ hp
    simp [collectReports, hp]
  | cons q qs ih =>
    intro acc p post err hpre hp
    obtain ⟨r, hr⟩ := hpre q (List.mem_cons_self _ _)
    simp only [List.cons_append, collectReports, hr]
    exact ih (acc ++ [r]) p post err (fun x hx => hpre x (List.mem_cons_of_mem _ hx)) hp

theorem collectReports_nil_of_error (s : JobStore) (build : Int) (paths : List String) :
    ∀ (acc : List Report),
      (collectReports s build acc paths).2 ≠ none →
      (collectReports s build acc paths).1 = [] := by
  induction paths with
  | nil => intro acc h; simp [collectReports] at h
  | cons p ps ih =>
    intro acc h
    cases hp : readJSONReport s build p with
    | error err => simp [collectReports, hp]
    | ok r =>
      simp only [collectReports, hp] at h ⊢
      exact ih _ h

theorem GetFlakyTestReport_of_chosen (s : JobStore) (now : Int) (repo : String)
    (buildID b : Int)
    (hb : (buildID ≠ -1 ∧ b = buildID) ∨
      (buildID = -1 ∧ getLatestValidBuild s now repo = (b, none))) :
    GetFlakyTestReport s now repo buildID =
      collectReports s b [] (getReportPaths s b repo) := by
  unfold GetFlakyTestReport
  rcases hb with ⟨h1, h2⟩ | ⟨h1, h2⟩
  · rw [if_neg h1, h2]
  · rw [if_pos h1, h2]

/-- C9. All-or-nothing collection in `GetFlakyTestReport`. Let `b` be the
chosen build (the given `buildID`, or the build found by `getLatestValidBuild`
when `buildID` is `-1`). If every matching path reads and decodes, the call
returns the decoded reports in path order and no error. If the path `p` is the
first that fails to read or decode, with error `err`, the call returns no
report and `err`. Whenever the call returns an error it returns no report. -/
theorem GetFlakyTestReport_all_or_nothing (s : JobStore) (now : Int) (repo : String)
    (buildID b : Int)
    (hb : (buildID ≠ -1 ∧ b = buildID) ∨
      (buildID = -1 ∧ getLatestValidBuild s now repo = (b, none))) :
    (∀ reports : List Report,
      (getReportPaths s b repo).map (readJSONReport s b) = reports.map Except.ok →
      GetFlakyTestReport s now repo buildID = (reports, none)) ∧
    (∀ (pre : List String) (p : String) (post : List String) (err : Error),
      getReportPaths s b repo = pre ++ p :: post →
      (∀ q ∈ pre, ∃ r, readJSONReport s b q = Except.ok r) →
      (s.readFile b p = Except.error err ∨
        ∃ contents, s.readFile b p = Except.ok contents ∧
          s.unmarshal contents = Except.error err) →
      GetFlakyTestReport s now repo buildID = ([], some err)) ∧
    ((GetFlakyTestReport s now repo buildID).2 ≠ none →
      (GetFlakyTestReport s now repo buildID).1 = []) := by
  rw [GetFlakyTestReport_of_chosen s now repo buildID b hb]
  refine ⟨?_, ?_, ?_⟩
  · intro reports h
    simpa using collectReports_ok s b _ [] reports h
  · intro pre p post err hpaths hpre hp
    rw [hpaths]
    apply collectReports_error s b pre [] p post err hpre
    rcases hp with h | ⟨contents, h1, h2⟩
    · simp [readJSONReport, h]
    · simp [readJSONReport, h1, h2]
  · exact collectReports_nil_of_error s b _ []

/-- Witness of C9 on `reportStore`: build 5, found as the latest build, gives
its two reports in path order; build 6, whose second artifact cannot be read,
gives that error and no report. -/
theorem GetFlakyTestReport_all_or_nothing_witness :
    GetFlakyTestReport reportStore 0 "" (-1) =
      ([⟨"serving", ["TestA", "TestB"]⟩, ⟨"eventing", ["TestC"]⟩], none) ∧
    GetFlakyTestReport reportStore 0 "" 6 =
      ([], some (Error.readFailed "object does not exist")) :=
  ⟨(GetFlakyTestReport_all_or_nothing reportStore 0 "" (-1) 5
      (Or.inr ⟨rfl, by decide⟩)).1 _ rfl,
   (GetFlakyTestReport_all_or_nothing reportStore 0 "" 6 6
      (Or.inl ⟨by decide, rfl⟩)).2.1 ["artifacts/serving/flaky-tests.json"]
      "artifacts/eventing/flaky-tests.json" [] _ (by decide)
      (by intro q hq; rw [List.mem_singleton] at hq; subst hq; exact ⟨_, rfl⟩)
      (Or.inl rfl)⟩

/-- C10. `ParseFlakyLog` is a left fold of the callback: when
`GetFlakyTestReport` returns the reports `rs` and no error, `ParseFlakyLog`
returns `rs` and the value obtained from the empty sequence by applying `f` to
each report of `rs` in order (for the callback appending the flaky names, the
concatenation of the `Flaky` lists); when `GetFlakyTestReport` returns an
error, the extracted result is empty whatever `f` is, and the error is
returned. -/
theorem ParseFlakyLog_fold (s : JobStore) (now : Int) (repo : String) (buildID : Int) :
    (∀ (f : Report → List String → List String) (rs : List Report),
      GetFlakyTestReport s now repo buildID = (rs, none) →
      ParseFlakyLog s now repo buildID f = (rs, rs.foldl (fun acc r => f r acc) [], none)) ∧
    (∀ rs : List Report,
      GetFlakyTestReport s now repo buildID = (rs, none) →
      ParseFlakyLog s now repo buildID appendFlaky =
        (rs, (rs.map Report.Flaky).flatten, none)) ∧
    (∀ (f : Report → List String → List String) (rs : List Report) (err : Error),
      GetFlakyTestReport s now repo buildID = (rs, some err) →
      ParseFlakyLog s now repo buildID f = ([], [], some err)) := by
  have hfold : ∀ (f : Report → List String → List String) (rs : List Report),
      GetFlakyTestReport s now repo buildID = (rs, none) →
      ParseFlakyLog s now repo buildID f =
        (rs, rs.foldl (fun acc r => f r acc) [], none) := by
    intro f rs h
    unfold ParseFlakyLog
    simp only [h]
    cases rs with
    | nil => simp
    | cons r rest => simp
  have hjoin : ∀ (rs : List Report) (acc : List String),
      rs.foldl (fun acc r => appendFlaky r acc) acc = acc ++ (rs.map Report.Flaky).flatten := by
    intro rs
    induction rs with
    | nil => intro acc; simp
    | cons r rest ih =>
      intro acc
      rw [List.foldl_cons, ih]
      simp [appendFlaky]
  refine ⟨hfold, ?_, ?_⟩
  · intro rs h
    rw [hfold appendFlaky rs h, hjoin]
    simp
  · intro f rs err h
    have h1 : (GetFlakyTestReport s now repo buildID).1 = [] := by
      unfold GetFlakyTestReport at h ⊢
      split_ifs at h ⊢ with hid
      · cases hl : getLatestValidBuild s now repo with
        | mk latest e =>
          cases e with
          | some e1 => rfl
          | none =>
            simp only [hl] at h ⊢
            exact collectReports_nil_of_error s latest _ [] (by rw [h]; simp)
      · exact collectReports_nil_of_error s buildID _ [] (by rw [h]; simp)
    rw [h] at h1
    simp only at h1
    subst h1
    unfold ParseFlakyLog
    simp only [h]

/-- Witness of C10 on `reportStore`: the flaky names of the two reports of the
latest build, in report order. -/
theorem ParseFlakyLog_fold_witness :
    ParseFlakyLog reportStore 0 "" (-1) appendFlaky =
      ([⟨"serving", ["TestA", "TestB"]⟩, ⟨"eventing", ["TestC"]⟩],
        ["TestA", "TestB", "TestC"], none) :=
  (ParseFlakyLog_fold reportStore 0 "" (-1)).2.1
    [⟨"serving", ["TestA", "TestB"]⟩, ⟨"eventing", ["TestC"]⟩] (by decide)

/-! ## Properties of the status aggregator -/

theorem lookup_snoc_isNone (acc : List (String × String)) (c st k : String) :
    ((acc ++ [(c, st)]).lookup k).isNone = ((acc.lookup k).isNone && decide (k ≠ c)) := by
  rw [List.lookup_append]
  cases h : acc.lookup k with
  | some v => simp
  | none =>
    by_cases hk : k = c
    · simp [hk]
    · have hb : (k == c) = false := by simp [hk]
      simp [List.lookup_cons, hk, hb]

theorem foldl_filterStatuses (l : List Status) :
    ∀ acc : List (String × String),
      l.foldl
        (fun filteredStatuses status =>
          match filteredStatuses.lookup status.Context with
          | some _ => filteredStatuses
          | none => filteredStatuses ++ [(status.Context, status.State)])
        acc =
      acc ++ (firstPerContext l).filter (fun p => (acc.lookup p.1).isNone) := by
  induction l with
  | nil => intro acc; simp [firstPerContext]
  | cons e l ih =>
    intro acc
    rw [List.foldl_cons]
    cases h : acc.lookup e.Context with
    | some v =>
      simp only [ih, firstPerContext, List.filter_cons, h, Option.isNone_some]
      simp only [Bool.false_eq_true, if_false, List.filter_filter]
      congr 1
      apply List.filter_congr
      intro p _
      by_cases hp : p.1 = e.Context
      · simp [hp, h]
      · simp [hp]
    | none =>
      simp only [ih, firstPerContext, List.filter_cons, h, Option.isNone_none, if_true,
        List.filter_filter, List.append_assoc, List.singleton_append]
      congr 2
      apply List.filter_congr
      intro p _
      rw [lookup_snoc_isNone]
      simp

theorem filterStatuses_eq (l : List Status) : filterStatuses l = firstPerContext l := by
  unfold filterStatuses
  rw [foldl_filterStatuses]
  simp

theorem lookup_filter_ne (m : List (String × String)) (c k : String) (h : c ≠ k) :
    (m.filter (fun p => !decide (p.1 = k))).lookup c = m.lookup c := by
  induction m with
  | nil => rfl
  | cons q m ih =>
    obtain ⟨a, b⟩ := q
    by_cases ha : a = k
    · subst ha
      have hca : (c == a) = false := by simp [h]
      simp [List.filter_cons, List.lookup_cons, hca, ih]
    · by_cases hc : c = a
      · simp [List.filter_cons, ha, List.lookup_cons, hc]
      · have hca : (c == a) = false := by simp [hc]
        simp [List.filter_cons, ha, List.lookup_cons, hca, ih]

theorem lookup_firstPerContext (l : List Status) (c : String) :
    (firstPerContext l).lookup c =
      (l.find? (fun e => e.Context == c)).map Status.State := by
  induction l with
  | nil => rfl
  | cons e l ih =>
    by_cases hc : e.Context = c
    · simp [firstPerContext, List.find?_cons, hc]
    · have h1 : (e.Context == c) = false := by simp [hc]
      have h2 : (c == e.Context) = false := by simp [Ne.symm hc]
      simp only [firstPerContext, List.find?_cons, h1, List.lookup_cons, h2]
      rw [lookup_filter_ne _ _ _ (Ne.symm hc), ih]

theorem keys_firstPerContext (l : List Status) (c : String) :
    c ∈ (firstPerContext l).map Prod.fst ↔ ∃ e ∈ l, e.Context = c := by
  induction l with
  | nil => simp [firstPerContext]
  | cons e l ih =>
    simp only [firstPerContext, List.map_cons, List.mem_cons, exists_eq_or_imp]
    constructor
    · rintro (h | h)
      · exact Or.inl h.symm
      · right
        apply ih.1
        simp only [List.mem_map, List.mem_filter] at h ⊢
        obtain ⟨p, ⟨hp, _⟩, rfl⟩ := h
        exact ⟨p, hp, rfl⟩
    · rintro (h | h)
      · exact Or.inl h.symm
      · by_cases hc : c = e.Context
        · exact Or.inl hc
        · right
          have := ih.2 h
          simp only [List.mem_map, List.mem_filter] at this ⊢
          obtain ⟨p, hp, rfl⟩ := this
          exact ⟨p, ⟨hp, by simpa using hc⟩, rfl⟩

theorem nodup_keys_firstPerContext (l : List Status) :
    ((firstPerContext l).map Prod.fst).Nodup := by
  induction l with
  | nil => simp [firstPerContext]
  | cons e l ih =>
    simp only [firstPerContext, List.map_cons, List.nodup_cons]
    constructor
    · simp
    · exact (ih.sublist ((List.filter_sublist _).map Prod.fst))

theorem mem_firstPerContext (l : List Status) (c st : String) :
    (c, st) ∈ firstPerContext l ↔
      (l.find? (fun e => e.Context == c)).map Status.State = some st := by
  rw [← lookup_firstPerContext]
  have hnd := nodup_keys_firstPerContext l
  generalize firstPerContext l = m at hnd
  induction m with
  | nil => simp
  | cons q m ih =>
    obtain ⟨a, b⟩ := q
    simp only [List.map_cons, List.nodup_cons] at hnd
    by_cases hc : c = a
    · subst hc
      simp only [List.mem_cons, Prod.mk.injEq, true_and, List.lookup_cons_self,
        Option.some.injEq]
      constructor
      · rintro (h | h)
        · exact h.symm
        · exact absurd (List.mem_map_of_mem Prod.fst h) hnd.1
      · intro h; exact Or.inl h.symm
    · have hca : (c == a) = false := by simp [hc]
      simp [List.lookup_cons, hca, hc, ih hnd.2]

theorem statusStep_excluded (acc e : String × String) (h : excluded e.1) :
    statusStep acc e = acc := by
  unfold excluded at h
  simp [statusStep, h]

theorem foldl_statusStep_overall (v : List (String × String)) :
    ∀ acc : String × String,
      (∀ p ∈ v, validState p.2) →
      (acc.2 = "" ∨ acc.2 = "success" ∨ acc.2 = "pending" ∨ acc.2 = "failure") →
      (v.foldl statusStep acc).2 =
        if acc.2 = "failure" ∨ v.any countsFailure = true then "failure"
        else if acc.2 = "pending" ∨ v.any countsPending = true then "pending"
        else if acc.2 = "success" ∨ v.any countsSuccess = true then "success"
        else "" := by
  induction v with
  | nil =>
    intro acc _ hacc
    rcases hacc with h | h | h | h <;> simp [h]
  | cons e v ih =>
    intro acc hv hacc
    have hev : validState e.2 := hv e (List.mem_cons_self _ _)
    have hv2 : ∀ p ∈ v, validState p.2 := fun p hp => hv p (List.mem_cons_of_mem _ hp)
    rw [List.foldl_cons]
    obtain ⟨i, o⟩ := acc
    obtain ⟨job, st⟩ := e
    simp only at hacc hev
    by_cases hex : excluded job
    · rw [statusStep_excluded _ _ hex, ih _ hv2 hacc]
      simp only [List.any_cons, countsFailure, countsPending, countsSuccess]
      simp [hex, -List.any_eq_true]
    · have hex2 := hex
      unfold excluded at hex2
      have hstep : (statusStep (i, o) (job, st)).2 = "" ∨
          (statusStep (i, o) (job, st)).2 = "success" ∨
          (statusStep (i, o) (job, st)).2 = "pending" ∨
          (statusStep (i, o) (job, st)).2 = "failure" := by
        rcases hacc with h | h | h | h <;> rcases hev with h2 | h2 | h2 | h2 <;>
          subst h <;> subst h2 <;> simp [statusStep, hex2]
      rw [ih _ hv2 hstep]
      rcases hacc with h | h | h | h <;> rcases hev with h2 | h2 | h2 | h2 <;>
        subst h <;> subst h2 <;>
        simp only [statusStep, List.any_cons, countsFailure, countsPending, countsSuccess] <;>
        simp [hex2, hex, -List.any_eq_true]

theorem getPRStatusLoop_overall (v : List (String × String))
    (hv : ∀ p ∈ v, validState p.2) :
    (getPRStatusLoop v).2 =
      if v.any countsFailure = true then "failure"
      else if v.any countsPending = true then "pending"
      else if v.any countsSuccess = true then "success"
      else "" := by
  unfold getPRStatusLoop
  rw [foldl_statusStep_overall v ("", "") hv (Or.inl rfl)]
  simp [-List.any_eq_true]

theorem any_perm (p : String × String → Bool) (v m : List (String × String))
    (h : v.Perm m) : v.any p = m.any p := by
  rw [Bool.eq_iff_iff, List.any_eq_true, List.any_eq_true]
  constructor
  · rintro ⟨x, hx, hp⟩; exact ⟨x, h.mem_iff.1 hx, hp⟩
  · rintro ⟨x, hx, hp⟩; exact ⟨x, h.mem_iff.2 hx, hp⟩

theorem valid_filterStatuses (l : List Status) (hvalid : ∀ e ∈ l, validState e.State) :
    ∀ p ∈ filterStatuses l, validState p.2 := by
  intro p hp
  obtain ⟨c, st⟩ := p
  rw [filterStatuses_eq, mem_firstPerContext] at hp
  cases hf : l.find? (fun e => e.Context == c) with
  | none => simp [hf] at hp
  | some e =>
    simp only [hf, Option.map_some', Option.some.injEq] at hp
    rw [← hp]
    exact hvalid e (List.mem_of_find?_eq_some hf)

theorem overall_of_perm (l : List Status) (hvalid : ∀ e ∈ l, validState e.State)
    (visited : List (String × String)) (hperm : visited.Perm (filterStatuses l)) :
    (getPRStatusLoop visited).2 =
      if (filterStatuses l).any countsFailure = true then "failure"
      else if (filterStatuses l).any countsPending = true then "pending"
      else if (filterStatuses l).any countsSuccess = true then "success"
      else "" := by
  rw [getPRStatusLoop_overall visited
    (fun p hp => valid_filterStatuses l hvalid p (hperm.mem_iff.1 hp))]
  rw [any_perm _ _ _ hperm, any_perm _ _ _ hperm, any_perm _ _ _ hperm]

/-- C2, amended. Precedence of failure in `getPRStatus`: when every state is one
of `success`, `pending`, `failure`, `error`, and the first (newest) status of
some context other than `cla/google` and `tide` has state `failure` or
`error`, the overall status is `failure`, in whatever order the loop visits the
entries of the map. -/
theorem failure_precedence (l : List Status)
    (hvalid : ∀ e ∈ l, validState e.State)
    (e : Status) (hfirst : l.find? (fun x => x.Context == e.Context) = some e)
    (hnot : ¬ excluded e.Context) (hfail : e.State = "failure" ∨ e.State = "error") :
    (getPRStatus l).2 = "failure" ∧ ∀ r, IsPRStatus l r → r.2 = "failure" := by
  have hmem : (e.Context, e.State) ∈ filterStatuses l := by
    rw [filterStatuses_eq, mem_firstPerContext, hfirst]
    rfl
  have hany : (filterStatuses l).any countsFailure = true := by
    rw [List.any_eq_true]
    refine ⟨_, hmem, ?_⟩
    rcases hfail with h | h <;> simp [countsFailure, hnot, h]
  have hall : ∀ visited : List (String × String), visited.Perm (filterStatuses l) →
      (getPRStatusLoop visited).2 = "failure" := by
    intro visited hperm
    rw [overall_of_perm l hvalid visited hperm, if_pos hany]
  refine ⟨hall _ (List.Perm.refl _), ?_⟩
  rintro r ⟨visited, hperm, rfl⟩
  exact hall visited hperm

/-- Witness of C2 (amended) on the end-to-end scenario. -/
theorem failure_precedence_witness :
    (getPRStatus scenarioEvents).2 = "failure" ∧
      ∀ r, IsPRStatus scenarioEvents r → r.2 = "failure" :=
  failure_precedence scenarioEvents (by decide) ⟨"failure", "ctx1"⟩ (by decide) (by decide)
    (by decide)

/-- C2, as stated, fails. On `supersededFailure` an event of a non-excluded
context has state `failure`, yet every run returns the overall status
`success`, because a newer status of the same context replaces it. On
`unknownState` an event has state `failure`, yet the run that visits `ctx1`
first returns the overall status `queued`. -/
theorem failure_precedence_counterexample :
    ((∃ e ∈ supersededFailure, ¬ excluded e.Context ∧
        (e.State = "failure" ∨ e.State = "error")) ∧
      ∀ r, IsPRStatus supersededFailure r → r.2 = "success") ∧
    ((∃ e ∈ unknownState, ¬ excluded e.Context ∧
        (e.State = "failure" ∨ e.State = "error")) ∧
      IsPRStatus unknownState ("", "queued")) := by
  refine ⟨⟨by decide, ?_⟩, ⟨by decide, ?_⟩⟩
  · rintro r ⟨visited, hperm, rfl⟩
    have hm : filterStatuses supersededFailure = [("ctx1", "success")] := by decide
    rw [hm, List.perm_singleton] at hperm
    rw [hperm]
    decide
  · exact ⟨[("ctx1", "queued"), ("ctx2", "failure")], by decide, by decide⟩

/-- C3. The overall status is the precedence maximum of the deduplicated map
and does not depend on the iteration order: when every state is one of
`success`, `pending`, `failure`, `error`, then for every order `visited` in
which the loop visits the entries of the map the overall status is `failure`
if some non-excluded context maps to `failure` or `error`, else `pending` if
some maps to `pending`, else `success` if some maps to `success`, and the
empty string if every context of the map is excluded. -/
theorem overall_precedence_max (l : List Status)
    (hvalid : ∀ e ∈ l, validState e.State)
    (visited : List (String × String)) (hperm : visited.Perm (filterStatuses l)) :
    ((∃ p ∈ filterStatuses l, ¬ excluded p.1 ∧ (p.2 = "failure" ∨ p.2 = "error")) →
      (getPRStatusLoop visited).2 = "failure") ∧
    (¬ (∃ p ∈ filterStatuses l, ¬ excluded p.1 ∧ (p.2 = "failure" ∨ p.2 = "error")) →
      (∃ p ∈ filterStatuses l, ¬ excluded p.1 ∧ p.2 = "pending") →
      (getPRStatusLoop visited).2 = "pending") ∧
    (¬ (∃ p ∈ filterStatuses l, ¬ excluded p.1 ∧ (p.2 = "failure" ∨ p.2 = "error")) →
      ¬ (∃ p ∈ filterStatuses l, ¬ excluded p.1 ∧ p.2 = "pending") →
      (∃ p ∈ filterStatuses l, ¬ excluded p.1 ∧ p.2 = "success") →
      (getPRStatusLoop visited).2 = "success") ∧
    ((∀ p ∈ filterStatuses l, excluded p.1) → (getPRStatusLoop visited).2 = "") := by
  have hF : (filterStatuses l).any countsFailure = true ↔
      ∃ p ∈ filterStatuses l, ¬ excluded p.1 ∧ (p.2 = "failure" ∨ p.2 = "error") := by
    simp [List.any_eq_true, countsFailure]
  have hP : (filterStatuses l).any countsPending = true ↔
      ∃ p ∈ filterStatuses l, ¬ excluded p.1 ∧ p.2 = "pending" := by
    simp [List.any_eq_true, countsPending]
  have hS : (filterStatuses l).any countsSuccess = true ↔
      ∃ p ∈ filterStatuses l, ¬ excluded p.1 ∧ p.2 = "success" := by
    simp [List.any_eq_true, countsSuccess]
  rw [overall_of_perm l hvalid visited hperm]
  refine ⟨?_, ?_, ?_, ?_⟩
  · intro h
    rw [if_pos (hF.2 h)]
  · intro h1 h2
    rw [if_neg (fun h => h1 (hF.1 h)), if_pos (hP.2 h2)]
  · intro h1 h2 h3
    rw [if_neg (fun h => h1 (hF.1 h)), if_neg (fun h => h2 (hP.1 h)), if_pos (hS.2 h3)]
  · intro h
    rw [if_neg, if_neg, if_neg]
    · intro h3
      obtain ⟨p, hp, hne, _⟩ := hS.1 h3
      exact hne (h p hp)
    · intro h2
      obtain ⟨p, hp, hne, _⟩ := hP.1 h2
      exact hne (h p hp)
    · intro h1
      obtain ⟨p, hp, hne, _⟩ := hF.1 h1
      exact hne (h p hp)

/-- Witness of C3 on `withAdminChecks`, visited in an order that is not the
insertion order: no test context fails, one is pending. -/
theorem overall_precedence_max_witness :
    (getPRStatusLoop
      [("pull-knative-serving-unit-tests", "pending"), ("tide", "failure"),
        ("pull-knative-serving-integration-tests", "success"),
        ("cla/google", "pending")]).2 = "pending" :=
  (overall_precedence_max withAdminChecks (by decide) _ (by decide)).2.1
    (by decide) (by decide)

/-- C4. Deduplication keeps the first occurrence per context: the keys of the
map returned by `filterStatuses` are exactly the contexts that occur in the
list, no key occurs twice, and each context is mapped to the state of the
first status of the list with that context. On the scenario
`[(failure, ctx1), (success, ctx1), (success, ctx2)]` the map is
`ctx1: failure, ctx2: success` and every run returns the overall status
`failure`. -/
theorem filterStatuses_first_occurrence (l : List Status) :
    (∀ c, c ∈ (filterStatuses l).map Prod.fst ↔ ∃ e ∈ l, e.Context = c) ∧
    ((filterStatuses l).map Prod.fst).Nodup ∧
    (∀ c, (filterStatuses l).lookup c =
      (l.find? (fun e => e.Context == c)).map Status.State) ∧
    (∀ c st, (c, st) ∈ filterStatuses l ↔
      (l.find? (fun e => e.Context == c)).map Status.State = some st) ∧
    filterStatuses scenarioEvents = [("ctx1", "failure"), ("ctx2", "success")] ∧
    (∀ r, IsPRStatus scenarioEvents r → r.2 = "failure") := by
  rw [filterStatuses_eq]
  refine ⟨keys_firstPerContext l, nodup_keys_firstPerContext l, lookup_firstPerContext l,
    mem_firstPerContext l, by decide, ?_⟩
  rintro r ⟨visited, hperm, rfl⟩
  rw [overall_of_perm scenarioEvents (by decide) visited hperm]
  decide

/-- Witness of C4: the scenario visited in the order `ctx2`, `ctx1`. -/
theorem filterStatuses_first_occurrence_witness :
    (getPRStatusLoop [("ctx2", "success"), ("ctx1", "failure")]).2 = "failure" :=
  (filterStatuses_first_occurrence scenarioEvents).2.2.2.2.2 _
    ⟨[("ctx2", "success"), ("ctx1", "failure")], by decide, rfl⟩

theorem firstPerContext_dropExcluded (l : List Status) :
    firstPerContext (dropExcluded l) =
      (firstPerContext l).filter (fun p => !decide (excluded p.1)) := by
  induction l with
  | nil => rfl
  | cons e l ih =>
    unfold dropExcluded at ih ⊢
    by_cases hex : excluded e.Context
    · have hd : decide (¬ excluded e.Context) = false := by simp [hex]
      rw [List.filter_cons, hd]
      simp only [Bool.false_eq_true, if_false, ih, firstPerContext, List.filter_cons, hex,
        decide_True, Bool.not_true, List.filter_filter]
      apply List.filter_congr
      intro p _
      by_cases hp : p.1 = e.Context
      · simp [hp, hex]
      · simp [hp]
    · have hd : decide (¬ excluded e.Context) = true := by simp [hex]
      rw [List.filter_cons, hd]
      simp only [if_true, ih, firstPerContext, List.filter_cons, hex, decide_False,
        Bool.not_false, List.filter_filter]
      congr 1
      apply List.filter_congr
      intro p _
      rw [Bool.and_comm]

theorem foldl_statusStep_filter (v : List (String × String)) :
    ∀ acc : String × String,
      (v.filter (fun p => !decide (excluded p.1))).foldl statusStep acc =
        v.foldl statusStep acc := by
  induction v with
  | nil => intro acc; rfl
  | cons e v ih =>
    intro acc
    by_cases hex : excluded e.1
    · simp only [List.filter_cons, hex, decide_True, Bool.not_true, Bool.false_eq_true,
        if_false, List.foldl_cons, statusStep_excluded acc e hex, ih]
    · simp only [List.filter_cons, hex, decide_False, Bool.not_false, if_true,
        List.foldl_cons, ih]

theorem isPRStatus_dropExcluded (l : List Status) (r : String × String) :
    IsPRStatus (dropExcluded l) r ↔ IsPRStatus l r := by
  unfold IsPRStatus
  rw [filterStatuses_eq, filterStatuses_eq, firstPerContext_dropExcluded]
  constructor
  · rintro ⟨visited, hperm, rfl⟩
    refine ⟨visited ++ (firstPerContext l).filter (fun p => !(!decide (excluded p.1))),
      ?_, ?_⟩
    · exact (hperm.append_right _).trans (List.filter_append_perm _ _)
    · unfold getPRStatusLoop
      rw [← foldl_statusStep_filter (visited ++ _), List.filter_append, List.filter_filter]
      have h1 : (firstPerContext l).filter
          (fun p => !decide (excluded p.1) && !(!decide (excluded p.1))) = [] := by
        rw [List.filter_eq_nil_iff]
        intro p _
        simp
      rw [h1, List.append_nil, foldl_statusStep_filter]
  · rintro ⟨visited, hperm, rfl⟩
    refine ⟨visited.filter (fun p => !decide (excluded p.1)), hperm.filter _, ?_⟩
    unfold getPRStatusLoop
    rw [foldl_statusStep_filter]

theorem dropExcluded_insert (pre post : List Status) (x : Status)
    (hx : excluded x.Context) :
    dropExcluded (pre ++ x :: post) = dropExcluded (pre ++ post) := by
  unfold dropExcluded
  simp [List.filter_append, List.filter_cons, hx]

/-- C5. Exclusion as non-interference: removing every status whose context is
`cla/google` or `tide` from the list, or inserting such a status anywhere
with any state, leaves the set of possible results
`(integrationStatus, overallStatus)` of `getPRStatus` unchanged; two lists that
agree once those statuses are removed have the same results. -/
theorem getPRStatus_exclusion :
    (∀ (l : List Status) (r : String × String),
      IsPRStatus (dropExcluded l) r ↔ IsPRStatus l r) ∧
    (∀ (pre post : List Status) (x : Status), excluded x.Context →
      ∀ r : String × String,
        IsPRStatus (pre ++ x :: post) r ↔ IsPRStatus (pre ++ post) r) ∧
    (∀ (l other : List Status), dropExcluded other = dropExcluded l →
      ∀ r : String × String, IsPRStatus other r ↔ IsPRStatus l r) := by
  refine ⟨isPRStatus_dropExcluded, ?_, ?_⟩
  · intro pre post x hx r
    rw [← isPRStatus_dropExcluded (pre ++ x :: post), dropExcluded_insert pre post x hx,
      isPRStatus_dropExcluded]
  · intro l other h r
    rw [← isPRStatus_dropExcluded other, h, isPRStatus_dropExcluded]

/-- Witness of C5: `withAdminChecks` has the result of its test contexts alone,
and a `tide` error inserted between two test contexts changes nothing. -/
theorem getPRStatus_exclusion_witness :
    IsPRStatus withAdminChecks ("success", "pending") ∧
    IsPRStatus
      ([⟨"success", "pull-knative-serving-integration-tests"⟩] ++
        ⟨"error", "tide"⟩ :: [⟨"pending", "pull-knative-serving-unit-tests"⟩])
      ("success", "pending") :=
  ⟨(getPRStatus_exclusion.1 withAdminChecks ("success", "pending")).1
      ⟨_, List.Perm.refl _, by decide⟩,
   (getPRStatus_exclusion.2.1
      [⟨"success", "pull-knative-serving-integration-tests"⟩]
      [⟨"pending", "pull-knative-serving-unit-tests"⟩] ⟨"error", "tide"⟩ (by decide)
      ("success", "pending")).2 ⟨_, List.Perm.refl _, by decide⟩⟩

/-! ## Properties of the retry-comment classifier -/

theorem isDigit_ne (c : Char) (h : isDigit c = true) : c ≠ '/' ∧ c ≠ '-' ∧ c ≠ '+' := by
  refine ⟨?_, ?_, ?_⟩ <;> (rintro rfl; revert h; decide)

theorem findDigitSlashDigit_sound (l : List Char) :
    ∀ m, findDigitSlashDigit l = some m →
      ∃ a c, m = [a, '/', c] ∧ isDigit a = true ∧ isDigit c = true := by
  induction l with
  | nil => intro m h; simp [findDigitSlashDigit] at h
  | cons x rest ih =>
    intro m h
    match rest, ih, h with
    | [], _, h => simp [findDigitSlashDigit] at h
    | [_], _, h => simp [findDigitSlashDigit] at h
    | b :: c :: tail, ih, h =>
      rw [findDigitSlashDigit] at h
      split_ifs at h with hc
      · obtain ⟨h1, h2, h3⟩ := hc
        subst h2
        exact ⟨x, c, (Option.some.inj h).symm, h1, h3⟩
      · exact ih m h

theorem findDigitSlashDigit_leftmost (pre : List Char) :
    ∀ (a c : Char) (post : List Char), isDigit a = true → isDigit c = true →
      (∀ (pre2 : List Char) (e1 e2 : Char) (post2 : List Char),
        pre ++ a :: '/' :: c :: post = pre2 ++ e1 :: '/' :: e2 :: post2 →
        isDigit e1 = true → isDigit e2 = true → pre.length ≤ pre2.length) →
      findDigitSlashDigit (pre ++ a :: '/' :: c :: post) = some [a, '/', c] := by
  induction pre with
  | nil =>
    intro a c post ha hc _
    simp [findDigitSlashDigit, ha, hc]
  | cons x pre ih =>
    intro a c post ha hc hleft
    have hrest : ∃ b d tail, pre ++ a :: '/' :: c :: post = b :: d :: tail := by
      cases pre with
      | nil => exact ⟨_, _, _, rfl⟩
      | cons p ps =>
        cases ps with
        | nil => exact ⟨_, _, _, rfl⟩
        | cons q qs => exact ⟨_, _, _, rfl⟩
    obtain ⟨b, d, tail, hbd⟩ := hrest
    have hnot : ¬ (isDigit x = true ∧ b = '/' ∧ isDigit d = true) := by
      rintro ⟨h1, h2, h3⟩
      have := hleft [] x d tail (by simp [hbd, h2]) h1 h3
      simp at this
    rw [List.cons_append, hbd, findDigitSlashDigit, if_neg hnot, ← hbd]
    apply ih a c post ha hc
    intro pre2 e1 e2 post2 heq he1 he2
    have := hleft (x :: pre2) e1 e2 post2 (by simp [heq]) he1 he2
    simpa using this

theorem findDigitSlashDigit_none (l : List Char) :
    (∀ (pre : List Char) (a c : Char) (post : List Char),
        l = pre ++ a :: '/' :: c :: post → ¬ (isDigit a = true ∧ isDigit c = true)) →
      findDigitSlashDigit l = none := by
  induction l with
  | nil => intro _; simp [findDigitSlashDigit]
  | cons x rest ih =>
    intro h
    match rest, ih, h with
    | [], _, _ => simp [findDigitSlashDigit]
    | [_], _, _ => simp [findDigitSlashDigit]
    | b :: c :: tail, ih, h =>
      have hnot : ¬ (isDigit x = true ∧ b = '/' ∧ isDigit c = true) := by
        rintro ⟨h1, h2, h3⟩
        exact h [] x c tail (by simp [h2]) ⟨h1, h3⟩
      rw [findDigitSlashDigit, if_neg hnot]
      apply ih
      intro pre a e post heq
      exact h (x :: pre) a e post (by simp [heq])

theorem atoi_digit (a : Char) (h : isDigit a = true) :
    atoi [a] = ((a.toNat - '0'.toNat : Nat) : Int) ∧ a.toNat - '0'.toNat ≤ 9 := by
  obtain ⟨_, h2, h3⟩ := isDigit_ne a h
  have hle : a.toNat - '0'.toNat ≤ 9 := by
    simp only [isDigit, decide_eq_true_eq] at h
    have h9 : '9'.toNat = 57 := by decide
    have h0 : '0'.toNat = 48 := by decide
    omega
  refine ⟨?_, hle⟩
  unfold atoi
  split
  · contradiction
  · rename_i ds heq
    simp only [List.cons.injEq] at heq
    exact absurd heq.1 h2
  · rename_i ds heq
    simp only [List.cons.injEq] at heq
    exact absurd heq.1 h3
  · simp only [digitsValue, h, if_true]
    have : ¬ (2 ^ 63 - 1 < 0 * 10 + (a.toNat - '0'.toNat)) := by omega
    simp only [this, if_false]
    simp

theorem getRetryAttempts_of_match (body : String) (a c : Char)
    (h : findDigitSlashDigit body.data = some [a, '/', c])
    (ha : isDigit a = true) (hc : isDigit c = true) (uid : Int) :
    getRetryAttempts (some ⟨uid, body⟩) = ((a.toNat - '0'.toNat : Nat) : Int) := by
  have h1 := (isDigit_ne a ha).1
  have h2 := (isDigit_ne c hc).1
  have hsplit : splitSlash [a, '/', c] = [[a], [c]] := by
    simp [splitSlash, h1, h2]
  simp only [getRetryAttempts, h, Option.getD_some, hsplit, List.headD_cons]
  exact (atoi_digit a ha).1

/-- C11. Classifier priority order of `getRetryerState`: for a present comment,
the state is `retried` if the body contains `/test`; otherwise `blocked` if it
contains `non-flaky`; otherwise `expended` if it contains `expended`;
otherwise the string `nil`. A body that contains both `/test` and `expended`
(or `non-flaky`) is `retried`. -/
theorem getRetryerState_priority (c : IssueComment) :
    ("/test".data <:+: c.Body.data → getRetryerState (some c) = "retried") ∧
    (¬ "/test".data <:+: c.Body.data → "non-flaky".data <:+: c.Body.data →
      getRetryerState (some c) = "blocked") ∧
    (¬ "/test".data <:+: c.Body.data → ¬ "non-flaky".data <:+: c.Body.data →
      "expended".data <:+: c.Body.data → getRetryerState (some c) = "expended") ∧
    (¬ "/test".data <:+: c.Body.data → ¬ "non-flaky".data <:+: c.Body.data →
      ¬ "expended".data <:+: c.Body.data → getRetryerState (some c) = "nil") := by
  refine ⟨?_, ?_, ?_, ?_⟩
  · intro h1
    simp [getRetryerState, contains, h1]
  · intro h1 h2
    simp [getRetryerState, contains, h1, h2]
  · intro h1 h2 h3
    simp [getRetryerState, contains, h1, h2, h3]
  · intro h1 h2 h3
    simp [getRetryerState, contains, h1, h2, h3]

/-- Witness of C11: a body with both `/test` and `expended` is `retried`. -/
theorem getRetryerState_priority_witness :
    "expended".data <:+: retriedAndExpended.Body.data ∧
    getRetryerState (some retriedAndExpended) = "retried" :=
  ⟨by decide, (getRetryerState_priority retriedAndExpended).1 (by decide)⟩

/-- C12. Attempt extraction of `getRetryAttempts`: for a present comment, when
the body has a substring digit, slash, digit, the result is the value of the
first digit of the leftmost such substring; when it has none the result is 0;
the result is always between 0 and 9. -/
theorem getRetryAttempts_first_match (c : IssueComment) :
    (∀ (pre : List Char) (a d : Char) (post : List Char),
      c.Body.data = pre ++ a :: '/' :: d :: post →
      isDigit a = true → isDigit d = true →
      (∀ (pre2 : List Char) (e1 e2 : Char) (post2 : List Char),
        c.Body.data = pre2 ++ e1 :: '/' :: e2 :: post2 →
        isDigit e1 = true → isDigit e2 = true → pre.length ≤ pre2.length) →
      getRetryAttempts (some c) = ((a.toNat - '0'.toNat : Nat) : Int)) ∧
    ((∀ (pre : List Char) (a d : Char) (post : List Char),
        c.Body.data = pre ++ a :: '/' :: d :: post →
        ¬ (isDigit a = true ∧ isDigit d = true)) →
      getRetryAttempts (some c) = 0) ∧
    (0 ≤ getRetryAttempts (some c) ∧ getRetryAttempts (some c) ≤ 9) := by
  obtain ⟨uid, body⟩ := c
  refine ⟨?_, ?_, ?_⟩
  · intro pre a d post hbody ha hd hleft
    simp only at hbody hleft
    apply getRetryAttempts_of_match body a d _ ha hd
    rw [hbody]
    apply findDigitSlashDigit_leftmost pre a d post ha hd
    intro pre2 e1 e2 post2 heq
    exact hleft pre2 e1 e2 post2 (hbody.trans heq)
  · intro hnone
    have := findDigitSlashDigit_none body.data hnone
    simp only [getRetryAttempts, this]
    decide
  · cases hf : findDigitSlashDigit body.data with
    | none =>
      simp only [getRetryAttempts, hf]
      decide
    | some m =>
      obtain ⟨a, d, rfl, ha, hd⟩ := findDigitSlashDigit_sound _ m hf
      rw [getRetryAttempts_of_match body a d hf ha hd uid]
      have := (atoi_digit a ha).2
      omega

/-- Witness of C12: the body `3/5` yields 3. -/
theorem getRetryAttempts_first_match_witness :
    getRetryAttempts (some ⟨botID, "3/5"⟩) = 3 :=
  (getRetryAttempts_first_match ⟨botID, "3/5"⟩).1 [] '3' '5' [] rfl (by decide) (by decide)
    (by intro pre2 e1 e2 post2 _ _ _; exact Nat.zero_le _)

/-- C13. Absent comment: for a `nil` comment `getRetryerState` returns the
string `nil` and `getRetryAttempts` returns 0; `filterComments` returns `nil`
exactly when no comment of the list was written by the bot user ID, and
otherwise the first comment of the list written by it. -/
theorem absent_comment (comments : List IssueComment) :
    getRetryerState none = "nil" ∧
    getRetryAttempts none = 0 ∧
    (filterComments comments = none ↔ ∀ c ∈ comments, c.UserID ≠ botID) ∧
    (∀ c, filterComments comments = some c ↔
      ∃ pre post, comments = pre ++ c :: post ∧ c.UserID = botID ∧
        ∀ x ∈ pre, x.UserID ≠ botID) := by
  refine ⟨rfl, rfl, ?_, ?_⟩
  · induction comments with
    | nil => simp [filterComments]
    | cons x xs ih =>
      by_cases hx : x.UserID = botID
      · simp [filterComments, hx]
      · simp [filterComments, hx, ih]
  · induction comments with
    | nil => intro c; simp [filterComments]
    | cons x xs ih =>
      intro c
      by_cases hx : x.UserID = botID
      · simp only [filterComments, hx, if_true, Option.some.injEq]
        constructor
        · rintro rfl
          exact ⟨[], xs, rfl, hx, by simp⟩
        · rintro ⟨pre, post, heq, _, hpre⟩
          cases pre with
          | nil =>
            simp only [List.nil_append, List.cons.injEq] at heq
            exact heq.1
          | cons p ps =>
            simp only [List.cons_append, List.cons.injEq] at heq
            exact absurd (heq.1 ▸ hx) (hpre p (List.mem_cons_self _ _))
      · simp only [filterComments, hx, if_false]
        rw [ih c]
        constructor
        · rintro ⟨pre, post, heq, hc, hpre⟩
          refine ⟨x :: pre, post, by simp [heq], hc, ?_⟩
          intro y hy
          rcases List.mem_cons.1 hy with h | h
          · rw [h]; exact hx
          · exact hpre y h
        · rintro ⟨pre, post, heq, hc, hpre⟩
          cases pre with
          | nil =>
            simp only [List.nil_append, List.cons.injEq] at heq
            exact absurd (heq.1 ▸ hc) hx
          | cons p ps =>
            simp only [List.cons_append, List.cons.injEq] at heq
            exact ⟨ps, post, heq.2, hc, fun y hy => hpre y (List.mem_cons_of_mem _ hy)⟩

/-- Witness of C13 on a list whose second and third comments are by the bot. -/
theorem absent_comment_witness :
    filterComments [⟨7, "/test pull-knative-serving-unit-tests"⟩, retriedAndExpended,
      ⟨botID, "non-flaky"⟩] = some retriedAndExpended :=
  ((absent_comment [⟨7, "/test pull-knative-serving-unit-tests"⟩, retriedAndExpended,
      ⟨botID, "non-flaky"⟩]).2.2.2 retriedAndExpended).2
    ⟨[⟨7, "/test pull-knative-serving-unit-tests"⟩], [⟨botID, "non-flaky"⟩], rfl,
      by decide, by decide⟩

/-! ## Properties of deduplication and of the integration status -/

theorem firstPerContext_filter (q : String → Bool) (l : List Status) :
    firstPerContext (l.filter (fun e => q e.Context)) =
      (firstPerContext l).filter (fun p => q p.1) := by
  induction l with
  | nil => rfl
  | cons e l ih =>
    by_cases hq : q e.Context = true
    · simp only [List.filter_cons, hq, if_true, firstPerContext, ih, List.filter_filter]
      congr 1
      apply List.filter_congr
      intro p _
      rw [Bool.and_comm]
    · have hq2 : q e.Context = false := by simpa using hq
      simp only [List.filter_cons, hq2, Bool.false_eq_true, if_false, firstPerContext, ih,
        List.filter_filter]
      apply List.filter_congr
      intro p _
      by_cases hp : p.1 = e.Context
      · simp [hp, hq2]
      · simp [hp]

theorem dedupByContext_filter (q : String → Bool) (l : List Status) :
    dedupByContext (l.filter (fun e => q e.Context)) =
      (dedupByContext l).filter (fun e => q e.Context) := by
  induction l with
  | nil => rfl
  | cons e l ih =>
    by_cases hq : q e.Context = true
    · simp only [List.filter_cons, hq, if_true, dedupByContext, ih, List.filter_filter]
      congr 1
      apply List.filter_congr
      intro p _
      rw [Bool.and_comm]
    · have hq2 : q e.Context = false := by simpa using hq
      simp only [List.filter_cons, hq2, Bool.false_eq_true, if_false, dedupByContext, ih,
        List.filter_filter]
      apply List.filter_congr
      intro p _
      by_cases hp : p.Context = e.Context
      · simp [hp, hq2]
      · simp [hp]

theorem firstPerContext_dedupByContext (l : List Status) :
    firstPerContext (dedupByContext l) = firstPerContext l := by
  induction l with
  | nil => rfl
  | cons e l ih =>
    simp only [dedupByContext, firstPerContext]
    rw [firstPerContext_filter (fun c => !decide (c = e.Context)), ih, List.filter_filter]
    congr 1
    apply List.filter_congr
    intro p _
    simp

theorem dedupByContext_idem (l : List Status) :
    dedupByContext (dedupByContext l) = dedupByContext l := by
  induction l with
  | nil => rfl
  | cons e l ih =>
    simp only [dedupByContext]
    rw [dedupByContext_filter (fun c => !decide (c = e.Context)), ih, List.filter_filter]
    congr 1
    apply List.filter_congr
    intro p _
    simp

theorem dedupByContext_sublist (l : List Status) : (dedupByContext l).Sublist l := by
  induction l with
  | nil => exact List.Sublist.slnil
  | cons e l ih =>
    simp only [dedupByContext]
    exact ((List.filter_sublist _).trans ih).cons₂ e

theorem mem_dedupByContext (l : List Status) (x : Status) :
    x ∈ dedupByContext l ↔ l.find? (fun e => e.Context == x.Context) = some x := by
  induction l with
  | nil => simp [dedupByContext]
  | cons e l ih =>
    by_cases hc : e.Context = x.Context
    · simp only [dedupByContext, List.mem_cons, List.mem_filter, List.find?_cons, hc,
        beq_self_eq_true, Option.some.injEq]
      constructor
      · rintro (h | ⟨_, h⟩)
        · exact h.symm
        · simp at h
      · intro h; exact Or.inl h.symm
    · have hb : (e.Context == x.Context) = false := by simp [hc]
      simp only [dedupByContext, List.mem_cons, List.mem_filter, List.find?_cons, hb, ← ih]
      constructor
      · rintro (h | ⟨h, _⟩)
        · exact absurd (h ▸ rfl) hc
        · exact h
      · intro h
        exact Or.inr ⟨h, by simpa using Ne.symm hc⟩

/-- C14. Deduplication is idempotent for aggregation. With `dedupByContext l`
the sublist of `l` that keeps exactly the first status of each context:
`filterStatuses` returns the same map on it as on `l`, deduplicating it again
changes nothing, and `getPRStatus` has the same results
`(integrationStatus, overallStatus)` on it as on `l`, for every iteration
order of the map. -/
theorem dedup_idempotent (l : List Status) :
    ((dedupByContext l).Sublist l ∧
      ∀ x, x ∈ dedupByContext l ↔ l.find? (fun e => e.Context == x.Context) = some x) ∧
    filterStatuses (dedupByContext l) = filterStatuses l ∧
    dedupByContext (dedupByContext l) = dedupByContext l ∧
    getPRStatus (dedupByContext l) = getPRStatus l ∧
    (∀ r, IsPRStatus (dedupByContext l) r ↔ IsPRStatus l r) := by
  have hmap : filterStatuses (dedupByContext l) = filterStatuses l := by
    rw [filterStatuses_eq, filterStatuses_eq, firstPerContext_dedupByContext]
  refine ⟨⟨dedupByContext_sublist l, mem_dedupByContext l⟩, hmap, dedupByContext_idem l,
    ?_, ?_⟩
  · unfold getPRStatus
    rw [hmap]
  · intro r
    unfold IsPRStatus
    rw [hmap]

/-- Witness of C14 on `repeatedEvents`: the deduplicated list and the result of
`getPRStatus` on both lists. -/
theorem dedup_idempotent_witness :
    dedupByContext repeatedEvents =
      [⟨"pending", "pull-knative-serving-unit-tests"⟩,
        ⟨"error", "pull-knative-serving-integration-tests"⟩, ⟨"success", "tide"⟩] ∧
    getPRStatus (dedupByContext repeatedEvents) = ("failure", "failure") ∧
    getPRStatus repeatedEvents = ("failure", "failure") :=
  ⟨by decide, by decide, (dedup_idempotent repeatedEvents).2.2.2.1 ▸ (by decide)⟩

theorem mem_iff_lookup_of_nodup (m : List (String × String))
    (hnd : (m.map Prod.fst).Nodup) (c st : String) :
    m.lookup c = some st ↔ (c, st) ∈ m := by
  induction m with
  | nil => simp
  | cons q m ih =>
    obtain ⟨a, b⟩ := q
    simp only [List.map_cons, List.nodup_cons] at hnd
    by_cases hc : c = a
    · subst hc
      simp only [List.mem_cons, Prod.mk.injEq, true_and, List.lookup_cons_self,
        Option.some.injEq]
      constructor
      · intro h; exact Or.inl h.symm
      · rintro (h | h)
        · exact h.symm
        · exact absurd (List.mem_map_of_mem Prod.fst h) hnd.1
    · have hca : (c == a) = false := by simp [hc]
      simp [List.lookup_cons, hca, hc, ih hnd.2]

theorem lookup_perm_of_nodup (v m : List (String × String)) (hperm : v.Perm m)
    (hnd : (m.map Prod.fst).Nodup) (c : String) : v.lookup c = m.lookup c := by
  have hndv : (v.map Prod.fst).Nodup := (hperm.map Prod.fst).nodup_iff.2 hnd
  apply Option.ext
  intro st
  simp only [Option.mem_def]
  rw [mem_iff_lookup_of_nodup v hndv, mem_iff_lookup_of_nodup m hnd, hperm.mem_iff]

theorem statusStep_fst (acc : String × String) (job st : String) :
    (statusStep acc (job, st)).1 =
      if job = integrationJob then normalizeState st else acc.1 := by
  by_cases hj : job = integrationJob
  · subst hj
    have h1 : ¬ (integrationJob = "cla/google" ∨ integrationJob = "tide") := by decide
    simp only [statusStep, if_neg h1, if_true]
    have h2 : integrationJob = "pull-knative-serving-integration-tests" := rfl
    simp only [h2, if_true, normalizeState]
    split_ifs <;> rfl
  · have h2 : ¬ job = "pull-knative-serving-integration-tests" := hj
    simp only [statusStep, if_neg hj, if_neg h2]
    split_ifs <;> rfl

theorem foldl_statusStep_fst (v : List (String × String)) :
    ∀ acc : String × String, (v.map Prod.fst).Nodup →
      (v.foldl statusStep acc).1 =
        match v.lookup integrationJob with
        | some st => normalizeState st
        | none => acc.1 := by
  induction v with
  | nil => intro acc _; rfl
  | cons e v ih =>
    intro acc hnd
    obtain ⟨job, st⟩ := e
    simp only [List.map_cons, List.nodup_cons] at hnd
    rw [List.foldl_cons, ih _ hnd.2, statusStep_fst]
    by_cases hj : job = integrationJob
    · subst hj
      have hnone : v.lookup integrationJob = none := by
        cases hl : v.lookup integrationJob with
        | none => rfl
        | some x =>
          have := (mem_iff_lookup_of_nodup v hnd.2 _ x).1 hl
          exact absurd (List.mem_map_of_mem Prod.fst this) hnd.1
      simp [hnone]
    · have hb : (integrationJob == job) = false := by simp [Ne.symm hj]
      simp only [if_neg hj, List.lookup_cons, hb]

theorem find?_filter_self (p : Status → Bool) (l : List Status) :
    (l.filter p).find? p = l.find? p := by
  induction l with
  | nil => rfl
  | cons e l ih =>
    by_cases hp : p e = true
    · simp [List.filter_cons, hp]
    · simp [List.filter_cons, hp, ih]

theorem integration_of_perm (l : List Status) (visited : List (String × String))
    (hperm : visited.Perm (filterStatuses l)) :
    (getPRStatusLoop visited).1 =
      match l.find? (fun e => e.Context == integrationJob) with
      | some e => normalizeState e.State
      | none => "" := by
  rw [filterStatuses_eq] at hperm
  have hnd := nodup_keys_firstPerContext l
  unfold getPRStatusLoop
  rw [foldl_statusStep_fst visited _ ((hperm.map Prod.fst).nodup_iff.2 hnd),
    lookup_perm_of_nodup visited _ hperm hnd, lookup_firstPerContext]
  cases l.find? (fun e => e.Context == integrationJob) <;> rfl

/-- C15. Integration status extraction in `getPRStatus`: in whatever order the
loop visits the map, the integration status is the state, with `error` turned
into `failure`, of the first status of the list whose context is
`pull-knative-serving-integration-tests`, and the empty string when no status
has that context; two lists with the same statuses of that context give the
same integration status. -/
theorem integration_status_extraction (l : List Status)
    (visited : List (String × String)) (hperm : visited.Perm (filterStatuses l)) :
    ((∀ e, l.find? (fun x => x.Context == "pull-knative-serving-integration-tests") = some e →
        (getPRStatusLoop visited).1 = if e.State = "error" then "failure" else e.State) ∧
      ((∀ e ∈ l, e.Context ≠ "pull-knative-serving-integration-tests") →
        (getPRStatusLoop visited).1 = "")) ∧
    (∀ (other : List Status) (visited2 : List (String × String)),
      visited2.Perm (filterStatuses other) →
      other.filter (fun x => x.Context == "pull-knative-serving-integration-tests") =
        l.filter (fun x => x.Context == "pull-knative-serving-integration-tests") →
      (getPRStatusLoop visited2).1 = (getPRStatusLoop visited).1) := by
  have hmain := integration_of_perm l visited hperm
  refine ⟨⟨?_, ?_⟩, ?_⟩
  · intro e he
    have he2 : l.find? (fun x => x.Context == integrationJob) = some e := he
    rw [hmain, he2]
    rfl
  · intro hnone
    have : l.find? (fun x => x.Context == integrationJob) = none := by
      rw [List.find?_eq_none]
      intro x hx
      simpa using hnone x hx
    rw [hmain, this]
  · intro other visited2 hperm2 hfilter
    rw [hmain, integration_of_perm other visited2 hperm2]
    have h1 := find?_filter_self (fun x : Status => x.Context == integrationJob) l
    have h2 := find?_filter_self (fun x : Status => x.Context == integrationJob) other
    have hf : other.filter (fun x => x.Context == integrationJob) =
        l.filter (fun x => x.Context == integrationJob) := hfilter
    rw [← h1, ← h2, hf]

/-- Witness of C15 on `repeatedEvents`, the map visited in reverse insertion
order: the newest integration status is an error. -/
theorem integration_status_extraction_witness :
    (getPRStatusLoop
      [("tide", "success"), ("pull-knative-serving-integration-tests", "error"),
        ("pull-knative-serving-unit-tests", "pending")]).1 = "failure" :=
  (integration_status_extraction repeatedEvents _ (by decide)).1.1
    ⟨"error", "pull-knative-serving-integration-tests"⟩ (by decide)

/-! ## Further properties of the report locator -/

/-- C16, as stated, fails. On `staleStore` build 2 has a matching artifact and
is exactly 4 days (96 hours) old, and the call fails with the outdated error.
On `farFutureStore` the age of build 1, now minus its start time, is below 4
days and the call fails with the outdated error as well, `time.Unix` having
wrapped the start time around. -/
theorem threshold_boundary_counterexample :
    (4 * dayNs - 0 * 1000000000 = maxAge * 24 * hourNs ∧
      getReportPaths staleStore 2 "serving" ≠ [] ∧
      getLatestValidBuild staleStore (4 * dayNs) "serving" = (0, some Error.outdated)) ∧
    (946684800 * 1000000000 - 9223372036854775807 * 1000000000 ≤ maxAge * 24 * hourNs ∧
      getReportPaths farFutureStore 1 "serving" ≠ [] ∧
      farFutureStore.startTime 1 = some 9223372036854775807 ∧
      getLatestValidBuild farFutureStore (946684800 * 1000000000) "serving" =
        (0, some Error.outdated)) := by
  decide

/-- C16, amended. Threshold boundary in the scan of `getLatestValidBuild`: let
`b` be the build the scan decides on, the greatest listed ID that has a
matching artifact and a readable start time (builds above it may have a
matching artifact and no readable start time), the latest probe having found
nothing, and let its start time be one that `time.Unix` holds without wrapping
around (an int64 below `2 ^ 63 - 62135596800`). Then `b` is accepted if and
only if its age is strictly less than 4 days; otherwise, and so at exactly 96
hours, the call fails with the outdated error. -/
theorem threshold_boundary_strict (s : JobStore) (now : Int) (repo : String)
    (b startSec : Int)
    (hlatest : ∀ id, s.latestBuildNumber = some id → getReportPaths s id repo = [])
    (hb : b ∈ s.buildIDs) (hmatch : getReportPaths s b repo ≠ [])
    (hmax : ∀ id ∈ s.buildIDs, getReportPaths s id repo ≠ [] →
      (s.startTime id).isSome = true → id ≤ b)
    (hstart : s.startTime b = some startSec)
    (hlo : -(2 ^ 63) ≤ startSec) (hhi : startSec < 2 ^ 63 - 62135596800) :
    (getLatestValidBuild s now repo = (b, none) ↔
      now - startSec * 1000000000 < maxAge * 24 * hourNs) ∧
    (getLatestValidBuild s now repo = (0, some Error.outdated) ↔
      maxAge * 24 * hourNs ≤ now - startSec * 1000000000) := by
  have h4 : maxAge * 24 * hourNs = 4 * dayNs := by decide
  rw [getLatestValidBuild_at_first_dated s now repo b startSec hlatest hb hmatch hmax hstart
    hlo hhi, h4]
  constructor
  · constructor
    · intro h
      by_contra hlt
      rw [if_neg hlt] at h
      simp at h
    · intro h
      rw [if_pos h]
  · constructor
    · intro h
      by_contra hlt
      rw [if_pos (not_le.1 hlt)] at h
      simp at h
    · intro h
      rw [if_neg (not_lt.2 h)]

/-- Witness of C16 (amended) on `mixedStore`, where the scan passes over build
3, which has a matching artifact and no readable start time, and decides on
build 1: one nanosecond before 4 days build 1 is accepted, at 4 days the call
fails as outdated. -/
theorem threshold_boundary_strict_witness :
    getReportPaths mixedStore 3 "serving" ≠ [] ∧
    getLatestValidBuild mixedStore (4 * dayNs - 1) "serving" = (1, none) ∧
    getLatestValidBuild mixedStore (4 * dayNs) "serving" = (0, some Error.outdated) :=
  ⟨by decide,
   (threshold_boundary_strict mixedStore (4 * dayNs - 1) "serving" 1 0
      (by decide) (by decide) (by decide) (by decide) (by decide) (by decide)
      (by decide)).1.2 (by decide),
   (threshold_boundary_strict mixedStore (4 * dayNs) "serving" 1 0
      (by decide) (by decide) (by decide) (by decide) (by decide) (by decide)
      (by decide)).2.2 (by decide)⟩

theorem getLatestValidBuild_has_match (s : JobStore) (now : Int) (repo : String) (b : Int)
    (h : getLatestValidBuild s now repo = (b, none)) : getReportPaths s b repo ≠ [] := by
  by_cases hl : ∃ id, s.latestBuildNumber = some id ∧ getReportPaths s id repo ≠ []
  · obtain ⟨id, hid, hne⟩ := hl
    rw [getLatestValidBuild_of_latest s now repo id hid hne] at h
    simp only [Prod.mk.injEq, and_true] at h
    rw [← h]
    exact hne
  · have hl2 : ∀ id, s.latestBuildNumber = some id → getReportPaths s id repo = [] := by
      intro id hid
      by_contra hne
      exact hl ⟨id, hid, hne⟩
    rw [getLatestValidBuild_of_no_latest s now repo hl2, scanBuilds_eq_find] at h
    cases hf : (sortReverse s.buildIDs).find? (datedMatch s repo) with
    | none =>
      rw [hf] at h
      simp at h
    | some x =>
      rw [hf] at h
      have hx := List.find?_some hf
      simp only [datedMatch, Bool.and_eq_true, decide_eq_true_eq,
        Option.isSome_iff_exists] at hx
      obtain ⟨hm, t, ht⟩ := hx
      simp only [verdict, ht] at h
      split_ifs at h
      · simp only [Prod.mk.injEq, and_true] at h
        rw [← h]
        intro h0
        exact hm (by simp [h0])
      · simp at h

theorem collectReports_length (s : JobStore) (build : Int) (paths : List String) :
    ∀ (acc rs : List Report), collectReports s build acc paths = (rs, none) →
      rs.length = acc.length + paths.length := by
  induction paths with
  | nil =>
    intro acc rs h
    simp only [collectReports, Prod.mk.injEq, and_true] at h
    simp [h]
  | cons p ps ih =>
    intro acc rs h
    cases hp : readJSONReport s build p with
    | error err => simp [collectReports, hp] at h
    | ok r =>
      simp only [collectReports, hp] at h
      have := ih _ rs h
      rw [List.length_append] at this
      simp only [List.length_cons, List.length_nil] at this ⊢
      omega

/-- C18. Postcondition of a successful search: when `getLatestValidBuild`
returns a build ID with no error, that build has a matching artifact; hence
`GetFlakyTestReport` called with build ID `-1` never returns an empty list of
reports with a `nil` error. -/
theorem successful_search_has_reports (s : JobStore) (now : Int) (repo : String) :
    (∀ b, getLatestValidBuild s now repo = (b, none) → getReportPaths s b repo ≠ []) ∧
    (∀ rs, GetFlakyTestReport s now repo (-1) = (rs, none) → rs ≠ []) := by
  refine ⟨getLatestValidBuild_has_match s now repo, ?_⟩
  intro rs h
  unfold GetFlakyTestReport at h
  rw [if_pos rfl] at h
  cases hl : getLatestValidBuild s now repo with
  | mk latest e =>
    cases e with
    | some err => simp [hl] at h
    | none =>
      simp only [hl] at h
      have hne := getLatestValidBuild_has_match s now repo latest hl
      have hlen := collectReports_length s latest _ [] rs h
      intro hrs
      rw [hrs] at hlen
      simp only [List.length_nil, Nat.zero_add] at hlen
      exact hne (List.length_eq_zero.1 hlen.symm)

/-- Witness of C18 on `reportStore`: the search returns build 5, which has two
matching artifacts, and the two reports are returned. -/
theorem successful_search_has_reports_witness :
    getReportPaths reportStore 5 "" ≠ [] ∧
    ([⟨"serving", ["TestA", "TestB"]⟩, ⟨"eventing", ["TestC"]⟩] : List Report) ≠ [] :=
  ⟨(successful_search_has_reports reportStore 0 "").1 5 (by decide),
   (successful_search_has_reports reportStore 0 "").2 _ (by decide)⟩

theorem scanBuilds_withoutUndated (s : JobStore) (now : Int) (repo : String)
    (l : List Int) :
    scanBuilds (withoutUndated s repo) now repo l = scanBuilds s now repo l := by
  induction l with
  | nil => rfl
  | cons x xs ih =>
    simp only [scanBuilds, ih]
    rfl

theorem scanBuilds_filter_undated (s : JobStore) (now : Int) (repo : String)
    (l : List Int) :
    scanBuilds s now repo (l.filter (fun id => !undated s repo id)) =
      scanBuilds s now repo l := by
  induction l with
  | nil => rfl
  | cons x xs ih =>
    by_cases hm : (getReportPaths s x repo).length = 0
    · have hu : (!undated s repo x) = true := by simp [undated, hm]
      rw [List.filter_cons, if_pos hu]
      simp only [scanBuilds, hm, if_true, ih]
    · cases hst : s.startTime x with
      | none =>
        have hu : ¬ (!undated s repo x) = true := by simp [undated, hm, hst]
        rw [List.filter_cons, if_neg hu, ih]
        simp only [scanBuilds, hm, if_false, hst]
      | some t =>
        have hu : (!undated s repo x) = true := by simp [undated, hst]
        rw [List.filter_cons, if_pos hu]
        simp only [scanBuilds, hm, if_false, hst]

theorem sortReverse_filter (p : Int → Bool) (l : List Int) :
    sortReverse (l.filter p) = (sortReverse l).filter p := by
  haveI : IsAntisymm Int (fun a b => b ≤ a) := ⟨fun a b h1 h2 => le_antisymm h2 h1⟩
  apply List.eq_of_perm_of_sorted (r := fun a b : Int => b ≤ a)
  · exact (List.perm_insertionSort _ _).trans
      ((List.perm_insertionSort (fun a b : Int => b ≤ a) l).symm.filter p)
  · exact sortReverse_pairwise _
  · exact (sortReverse_pairwise l).sublist (List.filter_sublist _)

/-- C19. Unreadable start times are skipped, not fatal: in the scan of
`getLatestValidBuild` a build with a matching artifact whose start time cannot
be read is passed over and the scan goes on with the rest of the list; the
outcome of the scan, and of `getLatestValidBuild`, is that obtained with every
such build removed from the list; and when the latest probe finds nothing and
every listed build with a matching artifact has an unreadable start time, the
call fails with the not-found error. -/
theorem unreadable_start_skipped (s : JobStore) (now : Int) (repo : String) :
    (∀ (id : Int) (rest : List Int),
      getReportPaths s id repo ≠ [] → s.startTime id = none →
      scanBuilds s now repo (id :: rest) = scanBuilds s now repo rest) ∧
    (∀ l : List Int,
      scanBuilds s now repo (l.filter (fun id => !undated s repo id)) =
        scanBuilds s now repo l) ∧
    getLatestValidBuild (withoutUndated s repo) now repo = getLatestValidBuild s now repo ∧
    ((∀ id, s.latestBuildNumber = some id → getReportPaths s id repo = []) →
      (∀ id ∈ s.buildIDs, getReportPaths s id repo ≠ [] → s.startTime id = none) →
      getLatestValidBuild s now repo = (0, some Error.noLogsFound)) := by
  refine ⟨?_, scanBuilds_filter_undated s now repo, ?_, ?_⟩
  · intro id rest hm hst
    have hlen : (getReportPaths s id repo).length ≠ 0 := fun h => hm (List.length_eq_zero.1 h)
    simp [scanBuilds, hlen, hst]
  · have hscan : scanBuilds (withoutUndated s repo) now repo
        (sortReverse (withoutUndated s repo).buildIDs) =
        scanBuilds s now repo (sortReverse s.buildIDs) := by
      rw [scanBuilds_withoutUndated]
      show scanBuilds s now repo
        (sortReverse (s.buildIDs.filter (fun id => !undated s repo id))) = _
      rw [sortReverse_filter, scanBuilds_filter_undated]
    unfold getLatestValidBuild
    rw [hscan]
    rfl
  · intro hl hall
    rw [getLatestValidBuild_of_no_latest s now repo hl, scanBuilds_eq_find]
    have hf : (sortReverse s.buildIDs).find? (datedMatch s repo) = none := by
      rw [List.find?_eq_none]
      intro x hx
      have hx2 := (mem_sortReverse _ _).1 hx
      by_cases hne : getReportPaths s x repo = []
      · simp [datedMatch, hne]
      · simp [datedMatch, hall x hx2 hne]
    rw [hf]

/-- Witness of C19 on `mixedStore` and `undatedStore`: build 3 is passed over
and the older build 1 is returned, as without build 3; with only undated
matches the call fails with the not-found error. -/
theorem unreadable_start_skipped_witness :
    scanBuilds mixedStore dayNs "serving" [3, 2, 1] =
      scanBuilds mixedStore dayNs "serving" [2, 1] ∧
    getLatestValidBuild mixedStore dayNs "serving" = (1, none) ∧
    getLatestValidBuild undatedStore 0 "serving" = (0, some Error.noLogsFound) :=
  ⟨(unreadable_start_skipped mixedStore dayNs "serving").1 3 [2, 1] (by decide) (by decide),
   (unreadable_start_skipped mixedStore dayNs "serving").2.2.1 ▸ (by decide),
   (unreadable_start_skipped undatedStore 0 "serving").2.2.2 (by decide) (by decide)⟩

/-- C20 fails on `twoRepoStore`: the query for the repository `serving` also
returns the report stored under the directory `knative-serving`, and the query
for the repository name `.` returns the reports of every repository. -/
theorem getReportPaths_other_repository :
    getReportPaths twoRepoStore 1 "serving" =
      ["artifacts/knative-serving/flaky-tests.json", "artifacts/serving/flaky-tests.json"] ∧
    getReportPaths twoRepoStore 1 "." =
      ["artifacts/knative-serving/flaky-tests.json", "artifacts/serving/flaky-tests.json"] := by
  decide

/-! ## Properties of the daily buckets -/

theorem initDataLoop_enough_fuel (now : Int) (fuel : Nat) :
    ∀ (date : Int) (data : Ratios.Data) (extra : Nat),
      now - date ≤ (fuel : Int) * dayNs →
      Ratios.initDataLoop now (fuel + extra) date data =
        Ratios.initDataLoop now fuel date data := by
  induction fuel with
  | zero =>
    intro date data extra h
    have hnot : ¬ date < now := by
      simp only [Nat.cast_zero, zero_mul] at h
      omega
    cases extra with
    | zero => rfl
    | succ n => simp [Ratios.initDataLoop, hnot]
  | succ fuel ih =>
    intro date data extra h
    rw [Nat.add_right_comm]
    simp only [Ratios.initDataLoop]
    split_ifs with hlt
    · apply ih
      have hd : dayNs = 86400000000000 := by decide
      rw [hd] at h ⊢
      push_cast at h
      omega
    · rfl

theorem initData_enough_fuel (startTime now : Int) (extra : Nat) :
    Ratios.initDataLoop now (((now - startTime) / dayNs + 1).toNat + extra) startTime [] =
      Ratios.initData startTime now := by
  unfold Ratios.initData
  apply initDataLoop_enough_fuel
  have hd : dayNs = 86400000000000 := by decide
  rw [hd]
  by_cases hneg : now - startTime < 0
  · have : (0 : Int) ≤ (((now - startTime) / 86400000000000 + 1).toNat : Int) :=
      Int.ofNat_nonneg _
    nlinarith
  · have h1 : 0 ≤ (now - startTime) / 86400000000000 :=
      Int.ediv_nonneg (by omega) (by decide)
    rw [Int.toNat_of_nonneg (by omega)]
    have := Int.lt_ediv_add_one_mul_self (now - startTime)
      (show (0 : Int) < 86400000000000 by decide)
    omega

/-- C17 fails for the start time 18:00 on day 0 and the clock value 09:00 on
day 2: `initData` makes the buckets of days 0 and 1 only, the bucket of the day
of the clock value is missing, and for a pull request merged at 08:00 on day 2,
which `getPullRequests` keeps, the increments of `main` reach a missing
bucket. -/
theorem initData_misses_last_day :
    18 * hourNs < 2 * dayNs + 9 * hourNs ∧
    Ratios.initData (18 * hourNs) (2 * dayNs + 9 * hourNs) = [(0, (0, 0)), (1, (0, 0))] ∧
    (Ratios.initData (18 * hourNs) (2 * dayNs + 9 * hourNs)).lookup
      (Ratios.dayOf (2 * dayNs + 9 * hourNs)) = none ∧
    Ratios.getPullRequests (18 * hourNs) [Ratios.morningPR] = [Ratios.morningPR] ∧
    Ratios.morningPR.MergedAt ≤ 2 * dayNs + 9 * hourNs ∧
    Ratios.run (18 * hourNs) (2 * dayNs + 9 * hourNs) [Ratios.morningPR] = none := by
  decide

end FlakyInfra
